import Mathlib

/-!
Verification of the HTML-selection-to-Markdown userscript family
(Auto Markdown Selection to Clipboard, Obsidian-style, MathMLToLaTeX,
MediaWiki variants).

The development shallowly embeds the string-processing core of the three
source variants: the placeholder registries and their restore passes, the
code-text sanitizer, the MediaWiki TeX normalizer with balanced-brace
stripping, the line-oriented Markdown postprocessors (blank-line
normalization, list tightening, adjacent-display-math tightening,
fence-padding removal), the raw-TeX text-node scanner, the per-construct
math resolvers, and the duplicate-run fingerprint logic of the trigger
engine.

JavaScript regular-expression passes are embedded as left-to-right
scanners over `List Char`: a global `String.replace` finds the leftmost
match, emits the replacement, and resumes scanning after the consumed
text without rescanning the replacement.  Greedy or lazy quantifiers in
the concrete patterns are resolved to deterministic maximal or minimal
munch wherever backtracking provably cannot change the result (the
character classes involved are disjoint).  Scanners that consume a
variable number of characters use an explicit fuel equal to the input
length, which is sufficient because every match consumes at least one
character.
-/

/-! ## Character and string utilities (JavaScript semantics) -/

/-- The JavaScript whitespace class: the characters matched by the regex
class `\s` and removed by `String.prototype.trim`. -/
def jsWs (c : Char) : Bool :=
  c = ' ' || c = '\t' || c = '\n' || c = '\r' || c.toNat = 11 || c.toNat = 12 ||
  c.toNat = 160 || c.toNat = 5760 || (8192 ≤ c.toNat && c.toNat ≤ 8202) ||
  c.toNat = 8232 || c.toNat = 8233 || c.toNat = 8239 || c.toNat = 8287 ||
  c.toNat = 12288 || c.toNat = 65279

/-- Left trim, as in the leading half of JavaScript `trim()`. -/
def jsTrimL (l : List Char) : List Char := l.dropWhile jsWs

/-- Right trim, as in the trailing half of JavaScript `trim()`. -/
def jsTrimR (l : List Char) : List Char := (l.reverse.dropWhile jsWs).reverse

/-- JavaScript `String.prototype.trim` on a character list. -/
def jsTrim (l : List Char) : List Char := jsTrimR (jsTrimL l)

/-- JavaScript `String.prototype.trim` on a `String`. -/
def jsTrimS (s : String) : String := ⟨jsTrim s.data⟩

/-- `hasPre p l` holds when the character list `l` begins with `p`
(literal prefix test used to model anchored regex literals). -/
def hasPre : List Char → List Char → Bool
  | [], _ => true
  | _ :: _, [] => false
  | p :: ps, c :: cs => p = c && hasPre ps cs

/-- Case-insensitive literal prefix test: the pattern is given in
lowercase and each input character is lowered before comparison,
modelling a `/.../i` anchored literal. -/
def lcHasPre : List Char → List Char → Bool
  | [], _ => true
  | _ :: _, [] => false
  | p :: ps, c :: cs => p = Char.toLower c && lcHasPre ps cs

/-- The backtick character (code point 96). -/
def btick : Char := Char.ofNat 96

/-- Decimal digit character for a value below ten. -/
def digitChar (n : Nat) : Char := Char.ofNat (48 + n)

/-- Numeric value of a decimal digit character. -/
def digitVal (c : Char) : Nat := c.toNat - 48

/-- Decimal digit list of a natural number (most significant first),
as produced by JavaScript number-to-string conversion for array
indices. -/
def digitsOf (n : Nat) : List Char :=
  if n < 10 then [digitChar n] else digitsOf (n / 10) ++ [digitChar (n % 10)]
termination_by n
decreasing_by exact Nat.div_lt_self (by omega) (by omega)

/-- Value of a decimal digit list, as JavaScript `Number` on a digit
string (exact for all indices that can address an array). -/
def natOfDigits (l : List Char) : Nat := l.foldl (fun a c => 10 * a + digitVal c) 0

/-- Split a character list at newline characters, as JavaScript
`split('\n')`: always returns at least one (possibly empty) line. -/
def splitNl : List Char → List (List Char)
  | [] => [[]]
  | c :: rest =>
    match splitNl rest, decide (c = '\n') with
    | r, true => [] :: r
    | [], false => [[c]]
    | h :: t, false => (c :: h) :: t

/-- Join lines with newline separators, as JavaScript `join('\n')`. -/
def joinNl : List (List Char) → List Char
  | [] => []
  | [l] => l
  | l :: ls => l ++ '\n' :: joinNl ls

/-- JavaScript `replace(/\r\n/g, '\n')`: a single left-to-right pass
that does not rescan its own output. -/
def crlfFix : List Char → List Char
  | [] => []
  | c :: rest =>
    if c = '\r' then
      match rest with
      | '\n' :: rest2 => '\n' :: crlfFix rest2
      | [] => [c]
      | b :: rest2 => c :: crlfFix (b :: rest2)
    else c :: crlfFix rest

/-- Build a string from a list of lines (newline-separated). -/
def mkLines (ls : List String) : String := ⟨joinNl (ls.map String.data)⟩

/-- A line as produced by splitting: free of newline and carriage
return characters. -/
def lineOkB (l : List Char) : Bool := l.all (fun c => c ≠ '\n' && c ≠ '\r')

/-- Lowercase a string character-wise, as `toLowerCase` on the ASCII
range used by the sources. -/
def jsLowerS (s : String) : String := ⟨s.data.map Char.toLower⟩

/-! ## Generic one-pass replacement scanner

`scanGo step fuel l` scans `l` left to right.  At each position, `step`
either matches — returning the emitted replacement and the number of
consumed characters (at least one) — or fails, in which case the current
character is copied and scanning resumes at the next position.
Replacements are never rescanned, matching the semantics of a global
JavaScript `String.replace`. -/
def scanGo (step : List Char → Option (List Char × Nat)) : Nat → List Char → List Char
  | 0, l => l
  | _ + 1, [] => []
  | fuel + 1, c :: rest =>
    match step (c :: rest) with
    | some (e, n) => e ++ scanGo step fuel ((c :: rest).drop n)
    | none => c :: scanGo step fuel rest

/-- Run a replacement scanner with fuel equal to the input length. -/
def scanRun (step : List Char → Option (List Char × Nat)) (l : List Char) : List Char :=
  scanGo step l.length l

/-! ## Placeholder registries (math and code)

From the `part_000`/`part_001` variants: `wrapLatex`,
`createMathPlaceholder`, `restoreMathPlaceholders`, `sanitizeCodeText`,
`createCodePlaceholder`, `restoreCodePlaceholders`.  The registries are
plain lists; `register` appends and returns the token embedding the new
dense index. -/

/-- `wrapLatex(latex, inline)`: trim, return empty for empty, else wrap
in inline or display dollars. -/
def wrapLatex (latex : String) (inline : Bool) : String :=
  let txt := jsTrimS latex
  if txt = "" then ""
  else if inline then "$" ++ txt ++ "$" else "$$\n" ++ txt ++ "\n$$"

/-- Tag characters of math placeholder tokens. -/
def mathTagChars : List Char := ['M', 'A', 'T', 'H']

/-- Tag characters of code placeholder tokens. -/
def codeTagChars : List Char := ['C', 'O', 'D', 'E']

/-- Placeholder token text for index `i`: `@@MATHi@@` or `@@CODEi@@`. -/
def phTok (tag : List Char) (i : Nat) : List Char :=
  '@' :: '@' :: tag ++ digitsOf i ++ ['@', '@']

/-- `createMathPlaceholder(latex, inline)`: push the wrapped LaTeX onto
the registry and return the token of the new index. -/
def createMathPlaceholder (snips : List String) (latex : String) (inline : Bool) :
    List String × String :=
  (snips ++ [wrapLatex latex inline], ⟨phTok mathTagChars snips.length⟩)

/-- Recognize a placeholder token `@@<tag><digits>@@` at the head of the
input, as the anchored step of the regex `/@@MATH(\d+)@@/g` (resp.
`CODE`): the literal `@@<tag>`, one or more digits (greedy matching is
maximal-munch here because a digit can never match the following `@`),
then `@@`.  Returns the parsed index and the consumed length. -/
def tokSplit (tag : List Char) (l : List Char) : Option (Nat × Nat) :=
  if hasPre ('@' :: '@' :: tag) l then
    let r := l.drop (2 + tag.length)
    let ds := r.takeWhile Char.isDigit
    if ds.isEmpty then none
    else if hasPre ['@', '@'] (r.drop ds.length) then
      some (natOfDigits ds, 2 + tag.length + ds.length + 2)
    else none
  else none

/-- Replacement step for a restore pass: a matched token is replaced by
the registry entry at its index, or the empty string when the index has
no entry (`SNIPPETS[idx] || ''`). -/
def phStep (tag : List Char) (tbl : List String) (l : List Char) :
    Option (List Char × Nat) :=
  match tokSplit tag l with
  | some (i, n) => some ((tbl.getD i "").data, n)
  | none => none

/-- `restoreMathPlaceholders(md)`: replace every `@@MATH<digits>@@`
token by its registry entry (or the empty string) in one pass. -/
def restoreMathPlaceholders (tbl : List String) (md : String) : String :=
  ⟨scanRun (phStep mathTagChars tbl) md.data⟩

/-- `restoreCodePlaceholders(md)`: replace every `@@CODE<digits>@@`
token by its registry entry (or the empty string) in one pass. -/
def restoreCodePlaceholders (tbl : List String) (md : String) : String :=
  ⟨scanRun (phStep codeTagChars tbl) md.data⟩

/-- Whether the text contains any substring of placeholder-token shape
(`@@MATH<digits>@@` or `@@CODE<digits>@@`). -/
def containsPhToken : List Char → Bool
  | [] => false
  | c :: rest =>
    (tokSplit mathTagChars (c :: rest)).isSome ||
    (tokSplit codeTagChars (c :: rest)).isSome || containsPhToken rest

/-- Match of the UI copy-button label at the start of a code body:
the anchored case-insensitive regex
`/^\s*(?:Code\s*kopieren|Copy\s*code)\s*/i`.  On success returns the
remainder after the label and the whitespace around it.  The interior
and trailing `\s*` are maximal munch: the characters that must follow
them are never whitespace. -/
def uiLabelSplit (l : List Char) : Option (List Char) :=
  let w := l.dropWhile jsWs
  if lcHasPre ['c', 'o', 'd', 'e'] w &&
      lcHasPre ['k', 'o', 'p', 'i', 'e', 'r', 'e', 'n'] ((w.drop 4).dropWhile jsWs) then
    some (((((w.drop 4).dropWhile jsWs).drop 8).dropWhile jsWs))
  else if lcHasPre ['c', 'o', 'p', 'y'] w &&
      lcHasPre ['c', 'o', 'd', 'e'] ((w.drop 4).dropWhile jsWs) then
    some (((((w.drop 4).dropWhile jsWs).drop 4).dropWhile jsWs))
  else none

/-- `sanitizeCodeText`: strip a recognized UI copy-button label at the
very start, then remove the trailing run of newline characters
(`replace(/\n+$/g, '')`). -/
def sanitizeCodeText (t : String) : String :=
  let t1 := match uiLabelSplit t.data with
    | some r => r
    | none => t.data
  ⟨(t1.reverse.dropWhile (fun c => c = '\n')).reverse⟩

/-- `createCodePlaceholder(codeText, language)`: build the fenced block
for the sanitized body and register it, returning the token. -/
def createCodePlaceholder (snips : List String) (codeText language : String) :
    List String × String :=
  let lang := jsTrimS language
  let code := sanitizeCodeText codeText
  let fenced :=
    if lang = "" then "```\n" ++ code ++ "\n```"
    else "```" ++ lang ++ "\n" ++ code ++ "\n```"
  (snips ++ [fenced], ⟨phTok codeTagChars snips.length⟩)

/-- Spec-side definition for comparison: remove the trailing blank
lines of a text (the whitespace-only lines at its end). -/
def removeTrailingBlankLines (s : String) : String :=
  ⟨joinNl (((splitNl s.data).reverse.dropWhile (fun l => l.all jsWs)).reverse)⟩

/-! ## Balanced-brace stripping and wiki-TeX normalization

From the userscript variant: `stripOuterBalancedBracesOnce` and
`normalizeWikiTex`. -/

/-- The depth-scanning loop of `stripOuterBalancedBracesOnce`, started
after the `startsWith('{') && endsWith('}')` guard: walk the characters
updating the depth; fail when the depth returns to zero before the last
character or goes negative; succeed when the final depth is zero. -/
def braceScan : List Char → Int → Bool
  | [], d => d = 0
  | c :: rest, d =>
    let d' : Int := if c = '\x7b' then d + 1 else if c = '\x7d' then d - 1 else d
    if d' = 0 && !rest.isEmpty then false
    else if d' < 0 then false
    else braceScan rest d'

/-- `stripOuterBalancedBracesOnce`: trim, and remove the outer brace
pair only when the string starts with `{`, ends with `}`, and the
balanced-depth scan confirms a single group spanning the whole
string. -/
def stripOuterBalancedBracesOnce (s : String) : String :=
  let t := jsTrimS s
  if t.data.head? = some '\x7b' && t.data.getLast? = some '\x7d' then
    if braceScan t.data 0 then ⟨(t.data.drop 1).dropLast⟩ else t
  else t

/-- Brace depth contribution of one character. -/
def braceDelta (c : Char) : Int :=
  if c = '\x7b' then 1 else if c = '\x7d' then -1 else 0

/-- Depth after the first `k` characters. -/
def prefixDepth (l : List Char) (k : Nat) : Int := ((l.take k).map braceDelta).sum

/-- Spec-side definition: the string is one balanced brace group
spanning the whole string — it starts with `{`, ends with `}`, the
depth stays positive at every proper nonempty prefix, and returns to
zero exactly at the final character. -/
def braceGroupSpansWholeB (l : List Char) : Bool :=
  l.head? = some '\x7b' && l.getLast? = some '\x7d' &&
  decide (∀ k < l.length, 0 < k → 0 < prefixDepth l k) &&
  prefixDepth l l.length = 0

/-- JavaScript word character (the regex class `\w`), used for `\b`. -/
def wordChar (c : Char) : Bool :=
  ('a' ≤ c && c ≤ 'z') || ('A' ≤ c && c ≤ 'Z') || ('0' ≤ c && c ≤ '9') || c = '_'

/-- Word boundary after a word character: the next character (if any)
is not a word character. -/
def wbAfter : List Char → Bool
  | [] => true
  | c :: _ => !wordChar c

/-- The characters of `\displaystyle`. -/
def dsMacroChars : List Char :=
  ['\\', 'd', 'i', 's', 'p', 'l', 'a', 'y', 's', 't', 'y', 'l', 'e']

/-- The characters of `\textstyle`. -/
def tsMacroChars : List Char := ['\\', 't', 'e', 'x', 't', 's', 't', 'y', 'l', 'e']

/-- Test of `/^\\displaystyle\b/`. -/
def testDispMacro (l : List Char) : Bool :=
  hasPre dsMacroChars l && wbAfter (l.drop 13)

/-- Strip of `replace(/^\\displaystyle\b\s*/, '')` once the test holds. -/
def dropDispMacro (l : List Char) : List Char := (l.drop 13).dropWhile jsWs

/-- Test of `/^\{\s*\\displaystyle\b/`. -/
def testBraceDispMacro (l : List Char) : Bool :=
  match l with
  | '\x7b' :: r => testDispMacro (r.dropWhile jsWs)
  | _ => false

/-- Strip of `replace(/^\{\s*\\displaystyle\b\s*/, '')`. -/
def dropBraceDispMacro (l : List Char) : List Char :=
  match l with
  | '\x7b' :: r => dropDispMacro (r.dropWhile jsWs)
  | _ => l

/-- `replace(/\}\s*$/, '')`: remove the final `}` together with the
whitespace after it, when the string ends that way. -/
def dropCloseBrace (l : List Char) : List Char :=
  let rev := l.reverse
  let w := rev.dropWhile jsWs
  match w with
  | '\x7d' :: r => r.reverse
  | _ => l

/-- Test of `/^\\textstyle\b/`. -/
def testTextMacro (l : List Char) : Bool :=
  hasPre tsMacroChars l && wbAfter (l.drop 10)

/-- Strip of `replace(/^\\textstyle\b\s*/, '')`. -/
def dropTextMacro (l : List Char) : List Char := (l.drop 10).dropWhile jsWs

/-- The three-iteration normalization loop of `normalizeWikiTex`: strip
an outer brace group and trim, then strip a leading `\displaystyle`
(bare, or brace-wrapped with a closing brace at the end) setting the
force-display flag; stop early when an iteration changes nothing. -/
def wikiLoop : Nat → String → Bool → String × Bool
  | 0, s, fd => (s, fd)
  | n + 1, s, fd =>
    let s' := jsTrimS (stripOuterBalancedBracesOnce s)
    if testDispMacro s'.data then
      wikiLoop n (jsTrimS ⟨dropDispMacro s'.data⟩) true
    else if testBraceDispMacro s'.data && s'.data.getLast? = some '\x7d' then
      wikiLoop n (jsTrimS ⟨dropCloseBrace (dropBraceDispMacro s'.data)⟩) true
    else if s' = s then (s', fd)
    else wikiLoop n s' fd

/-- `normalizeWikiTex`: trim; strip one outer brace group; run the
`\displaystyle` loop; finally strip a leading `\textstyle` without
touching the flag. -/
def normalizeWikiTex (texRaw : String) : String × Bool :=
  let s0 := jsTrimS texRaw
  if s0 = "" then ("", false)
  else
    let s1 := jsTrimS (stripOuterBalancedBracesOnce s0)
    let r := wikiLoop 3 s1 false
    let s2 := if testTextMacro r.1.data then jsTrimS ⟨dropTextMacro r.1.data⟩ else r.1
    (jsTrimS s2, r.2)

/-! ## Markdown postprocessors

`normalizeBlanklinesBlockSafe`, `tightenAdjacentDisplayMathBlocks` (the
userscript variant) and `collapseListSpacing`, `collapseFencePadding`
(the `part_000`/`part_001` variants). -/

/-- Test of `/^\s*```/` on a line. -/
def fenceLineTest (l : List Char) : Bool :=
  hasPre [btick, btick, btick] (l.dropWhile jsWs)

/-- Test of `/^\s*\$\$\s*$/` on a line. -/
def dispLineTest (l : List Char) : Bool :=
  let r := l.dropWhile jsWs
  hasPre ['$', '$'] r && (r.drop 2).all jsWs

/-- Blank line: `!line.trim()`. -/
def blankLineTest (l : List Char) : Bool := l.all jsWs

/-- Character class `[-: ]` of the table-separator pattern. -/
def tsepClassA (c : Char) : Bool := c = '-' || c = ':' || c = ' '

/-- Character class `[-|: ]` of the table-separator pattern. -/
def tsepClassB (c : Char) : Bool := c = '-' || c = '|' || c = ':' || c = ' '

/-- Test of `/^\s*\|.*\|\s*$/`: after trimming, the line starts and
ends with `|` and has length at least two. -/
def tableRowTest (l : List Char) : Bool :=
  let t := jsTrim l
  t.head? = some '|' && t.getLast? = some '|' && decide (2 ≤ t.length)

/-- Test of `/^\s*\|?[-: ]+\|[-|: ]*\s*$/`: optional leading `|`, a
nonempty run over `[-: ]`, a `|`, then a run over `[-|: ]` followed by
whitespace to the end.  All quantifiers are maximal munch because no
character that must follow a class run belongs to that class (the only
shared character of `[-|: ]` and `\s`, the space, may be taken by
either side without changing acceptance). -/
def tableSepTest (l : List Char) : Bool :=
  let w := l.dropWhile jsWs
  let w1 := match w with
    | '|' :: r => r
    | _ => w
  let a := w1.takeWhile tsepClassA
  !a.isEmpty &&
    (match w1.drop a.length with
     | '|' :: b => (b.dropWhile tsepClassB).all jsWs
     | _ => false)

/-- A line of a table region for blank-line normalization. -/
def tableLineTest (l : List Char) : Bool := tableRowTest l || tableSepTest l

/-- The line machine of `normalizeBlanklinesBlockSafe`: toggle fence
and display-math state on delimiter lines, copy protected and table
lines verbatim resetting the blank counter, and keep at most `maxB`
consecutive blank lines elsewhere (a kept blank is emitted as the
empty line). -/
def nblGo (maxB : Nat) : Bool → Bool → Nat → List (List Char) → List (List Char)
  | _, _, _, [] => []
  | f, d, k, l :: ls =>
    if fenceLineTest l then l :: nblGo maxB (!f) d 0 ls
    else if dispLineTest l then l :: nblGo maxB f (!d) 0 ls
    else if f || d || tableLineTest l then l :: nblGo maxB f d 0 ls
    else if blankLineTest l then
      (if k + 1 ≤ maxB then [[]] else []) ++ nblGo maxB f d (k + 1) ls
    else l :: nblGo maxB f d 0 ls

/-- `normalizeBlanklinesBlockSafe(md, maxBlank)`: normalize CRLF,
split into lines, run the state machine, join. -/
def normalizeBlanklinesBlockSafe (md : String) (maxB : Nat) : String :=
  ⟨joinNl (nblGo maxB false false 0 (splitNl (crlfFix md.data)))⟩

/-- The machine of `tightenAdjacentDisplayMathBlocks`: when a line
matching `/^\s*\$\$\s*$/` is followed by a blank line and another such
line, the blank line is skipped. -/
def tadmGo : List (List Char) → List (List Char)
  | [] => []
  | [l] => [l]
  | [l, a] => [l, a]
  | l :: a :: b :: rest =>
    if dispLineTest l && (blankLineTest a && dispLineTest b) then
      l :: tadmGo (b :: rest)
    else l :: tadmGo (a :: b :: rest)

/-- `tightenAdjacentDisplayMathBlocks(md)`. -/
def tightenAdjacentDisplayMathBlocks (md : String) : String :=
  ⟨joinNl (tadmGo (splitNl md.data))⟩

/-- Largest index of a newline inside a character list, if any. -/
def lastIdxNl : List Char → Option Nat
  | [] => none
  | c :: rest =>
    match lastIdxNl rest with
    | some k => some (k + 1)
    | none => if c = '\n' then some 0 else none

/-- The lookahead `(?=\s*(?:[-*+]\s|\d+\.\s))` of `collapseListSpacing`:
after optional whitespace, a list bullet followed by whitespace, or a
nonempty digit run, a dot, and whitespace. -/
def listMarkerAhead (l : List Char) : Bool :=
  let v := l.dropWhile jsWs
  match v with
  | c :: c2 :: _ =>
    if (c = '-' || c = '*' || c = '+') && jsWs c2 then true
    else
      let ds := v.takeWhile Char.isDigit
      !ds.isEmpty &&
        (match v.drop ds.length with
         | '.' :: c3 :: _ => jsWs c3
         | _ => false)
  | _ => false

/-- Step of the regex `/\n\s*\n(?=\s*(?:[-*+]\s|\d+\.\s))/g`: at a
newline, the greedy `\s*` backtracks to the last newline of the
following whitespace run; the lookahead result is the same from every
position inside that run, because its `\s*` skips to the first
non-whitespace character in any case. -/
def clsStep (l : List Char) : Option (List Char × Nat) :=
  match l with
  | '\n' :: rest =>
    let run := rest.takeWhile jsWs
    (match lastIdxNl run with
     | some k =>
       if listMarkerAhead (rest.drop (k + 1)) then some (['\n'], k + 2) else none
     | none => none)
  | _ => none

/-- `collapseListSpacing(md)`: collapse a blank gap before a list
marker to a single newline, everywhere in the text. -/
def collapseListSpacing (md : String) : String := ⟨scanRun clsStep md.data⟩

/-- Step of `/([^\n])\n{2,}```/g` with replacement `'$1\n```'`. -/
def cfpStep1 (l : List Char) : Option (List Char × Nat) :=
  match l with
  | c :: rest =>
    if c = '\n' then none
    else
      let run := rest.takeWhile (fun x => x = '\n')
      if 2 ≤ run.length && hasPre [btick, btick, btick] (rest.drop run.length) then
        some (c :: '\n' :: [btick, btick, btick], 1 + run.length + 3)
      else none
  | [] => none

/-- Step of `/```\n{2,}([^\n])/g` with replacement `'```\n$1'`. -/
def cfpStep2 (l : List Char) : Option (List Char × Nat) :=
  if hasPre [btick, btick, btick] l then
    let rest := l.drop 3
    let run := rest.takeWhile (fun x => x = '\n')
    if 2 ≤ run.length then
      match rest.drop run.length with
      | c :: _ => some ([btick, btick, btick, '\n', c], 3 + run.length + 1)
      | [] => none
    else none
  else none

/-- Step of `/([^\n])\n{2,}\$\$/g` with replacement `'$1\n$$'`.  In a
JavaScript replacement string `$$` denotes a single literal `$`, so
the two matched dollars are replaced by one. -/
def cfpStep3 (l : List Char) : Option (List Char × Nat) :=
  match l with
  | c :: rest =>
    if c = '\n' then none
    else
      let run := rest.takeWhile (fun x => x = '\n')
      if 2 ≤ run.length && hasPre ['$', '$'] (rest.drop run.length) then
        some (c :: '\n' :: ['$'], 1 + run.length + 2)
      else none
  | [] => none

/-- Step of `/\$\$\n{2,}([^\n])/g` with replacement `'$$\n$1'`, which
likewise emits a single literal `$`. -/
def cfpStep4 (l : List Char) : Option (List Char × Nat) :=
  if hasPre ['$', '$'] l then
    let rest := l.drop 2
    let run := rest.takeWhile (fun x => x = '\n')
    if 2 ≤ run.length then
      match rest.drop run.length with
      | c :: _ => some (['$', '\n', c], 2 + run.length + 1)
      | [] => none
    else none
  else none

/-- Step of `/\n{3,}/g` with replacement `'\n\n'`. -/
def cfpStep5 (l : List Char) : Option (List Char × Nat) :=
  match l with
  | '\n' :: _ =>
    let run := l.takeWhile (fun x => x = '\n')
    if 3 ≤ run.length then some (['\n', '\n'], run.length) else none
  | _ => none

/-- `collapseFencePadding(md)`: CRLF normalization followed by the five
sequential global replacements. -/
def collapseFencePadding (md : String) : String :=
  let s0 := crlfFix md.data
  let s1 := scanRun cfpStep1 s0
  let s2 := scanRun cfpStep2 s1
  let s3 := scanRun cfpStep3 s2
  let s4 := scanRun cfpStep4 s3
  ⟨scanRun cfpStep5 s4⟩

/-- The postprocessing composition named by the specification:
blank-line normalization (at the configured maximum of one), list
tightening, and fence-padding removal. -/
def postChain (md : String) : String :=
  collapseFencePadding (collapseListSpacing (normalizeBlanklinesBlockSafe md 1))

/-! ## Transpiled-markdown segments

A transpiled markdown text, as produced by the converter over a DOM in
which the extractors planted placeholder tokens, decomposes into
literal text and math/code tokens. -/

/-- One segment of a transpiled markdown text. -/
inductive Seg where
  | lit (s : String)
  | mtok (i : Nat)
  | ctok (i : Nat)

/-- Character text of one segment. -/
def renderSeg : Seg → List Char
  | .lit s => s.data
  | .mtok i => phTok mathTagChars i
  | .ctok i => phTok codeTagChars i

/-- Character text of a segment list. -/
def renderSegs : List Seg → List Char
  | [] => []
  | seg :: rest => renderSeg seg ++ renderSegs rest

/-- Intended resolution of a segment: a literal stays, a token becomes
its registry entry. -/
def resolveSegs (M C : List String) : List Seg → List Char
  | [] => []
  | .lit s :: rest => s.data ++ resolveSegs M C rest
  | .mtok i :: rest => (M.getD i "").data ++ resolveSegs M C rest
  | .ctok i :: rest => (C.getD i "").data ++ resolveSegs M C rest

/-- Effect of the math restore pass on one segment. -/
def mapMathSeg (M : List String) : Seg → Seg
  | .lit s => .lit s
  | .mtok i => .lit (M.getD i "")
  | .ctok i => .ctok i

/-- Effect of the code restore pass on one segment. -/
def mapCodeSeg (C : List String) : Seg → Seg
  | .lit s => .lit s
  | .mtok i => .mtok i
  | .ctok i => .lit (C.getD i "")

/-- First character distinct from the token tag letters. -/
def headNotTag : List Char → Bool
  | [] => true
  | c :: _ => c ≠ 'M' && c ≠ 'C'

/-- A string that cannot splice with token boundaries: nonempty, free
of the marker character `@`, and not starting with the tag letters `M`
or `C`. -/
def spliceSafe (s : String) : Prop :=
  s.data ≠ [] ∧ (∀ c ∈ s.data, c ≠ '@') ∧ headNotTag s.data = true

/-- Well-formedness of a segment relative to the two registries:
literals are splice-safe and token indices are registered. -/
def segOk (M C : List String) : Seg → Prop
  | .lit s => spliceSafe s
  | .mtok i => i < M.length
  | .ctok i => i < C.length

/-- A segment that contains no math token (the shape of segments after
the math restore pass). -/
def segNoM : Seg → Prop
  | .mtok _ => False
  | _ => True

/-! ## Per-construct math resolvers

Each extraction pass of `convertMathInContainer` and
`convertMediaWikiMath` resolves a DOM construct to a LaTeX string and
an inline flag, or skips it.  The DOM queries are abstracted into the
values they produce; the MathML→LaTeX converter is a function argument
returning `none` when it throws. -/

/-- KaTeX pass: TeX annotation text (if an annotation element exists),
display wrapper ancestor, block MathML descendant. -/
def katexResolve (ann : Option String) (hasDisplayWrap hasBlockMath : Bool) :
    Option (String × Bool) :=
  match ann with
  | none => none
  | some a =>
    let latex := jsTrimS a
    if latex = "" then none
    else some (latex, !(hasDisplayWrap || hasBlockMath))

/-- MathJax v3 pass: TeX annotation, else assistive MathML through the
converter (falling back to raw text content when the converter is
unavailable); display from the `display` attribute or an ancestor
marker.  A converter exception skips the construct. -/
def mjxResolve (convAvail : Bool) (conv : String → Option String)
    (ann : Option String) (mathEl : Option (String × String))
    (displayAttr : String) (hasAncestorDisplay : Bool) : Option (String × Bool) :=
  let l1 : String := match ann with
    | none => ""
    | some t => if t = "" then "" else jsTrimS t
  let l2 : Option String :=
    if l1 ≠ "" then some l1
    else match mathEl with
      | none => some ""
      | some (outer, txt) =>
        if convAvail then (conv outer).map (fun s => jsTrimS s)
        else some (jsTrimS txt)
  match l2 with
  | none => none
  | some latex =>
    if latex = "" then none
    else
      let d := jsLowerS displayAttr
      some (latex, !(d = "true" || d = "block" || hasAncestorDisplay))

/-- Bare `<math>` pass: converter output, else raw text content;
display from the element's own attribute. -/
def bareMathResolve (convAvail : Bool) (conv : String → Option String)
    (outer txt : String) (displayAttr : String) : Option (String × Bool) :=
  let l : Option String :=
    if convAvail then (conv outer).map (fun s => jsTrimS s) else some (jsTrimS txt)
  match l with
  | none => none
  | some latex =>
    if latex = "" then none
    else
      let d := jsLowerS displayAttr
      some (latex, !(d = "block" || d = "true"))

/-- Search for `/mode\s*=\s*display/i` anywhere in the type attribute. -/
def modeDisplayAt (l : List Char) : Bool :=
  lcHasPre ['m', 'o', 'd', 'e'] l &&
    (match (l.drop 4).dropWhile jsWs with
     | '=' :: r =>
       lcHasPre ['d', 'i', 's', 'p', 'l', 'a', 'y'] (r.dropWhile jsWs)
     | _ => false)

/-- Unanchored search for the display marker. -/
def modeDisplaySearch : List Char → Bool
  | [] => false
  | c :: rest => modeDisplayAt (c :: rest) || modeDisplaySearch rest

/-- Legacy `script[type^="math/tex"]` pass. -/
def texScriptResolve (typeAttr txt : String) : Option (String × Bool) :=
  let isDisplay := modeDisplaySearch typeAttr.data
  let latex := jsTrimS txt
  if latex = "" then none else some (latex, !isDisplay)

/-- MediaWiki pass: fallback-image `alt`/`aria-label` (already
selected, pre-trim) when a render image exists, else converter output
of the nested MathML (an exception is caught locally and leaves the
LaTeX unresolved); display from the MathML attribute and the
fallback-image classes, the inline class winning last. -/
def mediaWikiResolve (imgAlt : Option String) (mathOuter : Option String)
    (convAvail : Bool) (conv : String → Option String)
    (mathDisplayAttr : String) (hasDisplayImg hasInlineImg : Bool) :
    Option (String × Bool) :=
  let l1 : String := match imgAlt with
    | none => ""
    | some a => jsTrimS a
  let latex : String :=
    if l1 ≠ "" then l1
    else match mathOuter, convAvail with
      | some o, true =>
        (match conv o with
         | some s => jsTrimS s
         | none => "")
      | _, _ => ""
  if latex = "" then none
  else
    let i1 := if jsLowerS mathDisplayAttr = "block" then false else true
    let i2 := if hasDisplayImg then false else i1
    let i3 := if hasInlineImg then true else i2
    some (latex, i3)

/-! ## Raw-TeX text-node scanner

`convertInlineTeXTextNodes` scans a text node for
`/\\\((.+?)\\\)|\\\[([\s\S]+?)\\\]|\$\$([\s\S]+?)\$\$/g` and replaces
each match with a freshly registered math placeholder. -/

/-- Lazy search for the closing delimiter: expand the content one
character at a time (at least one), failing on a newline when the
content class is `.`, and stop at the first closer occurrence.
Returns the content and the consumed length including the closer. -/
def seekClose (allowNl : Bool) (closer : List Char) (acc r : List Char) :
    Option (List Char × Nat) :=
  if !acc.isEmpty && hasPre closer r then some (acc.reverse, acc.length + closer.length)
  else
    match r with
    | [] => none
    | c :: r' =>
      if !allowNl && c = '\n' then none
      else seekClose allowNl closer (c :: acc) r'

/-- Try the three alternatives at the current position, in pattern
order (their opening literals are mutually exclusive).  Returns the
content, the inline flag, and the consumed length. -/
def texMatchAt (l : List Char) : Option (List Char × Bool × Nat) :=
  if hasPre ['\\', '('] l then
    match seekClose false ['\\', ')'] [] (l.drop 2) with
    | some (content, n) => some (content, true, 2 + n)
    | none => none
  else if hasPre ['\\', '['] l then
    match seekClose true ['\\', ']'] [] (l.drop 2) with
    | some (content, n) => some (content, false, 2 + n)
    | none => none
  else if hasPre ['$', '$'] l then
    match seekClose true ['$', '$'] [] (l.drop 2) with
    | some (content, n) => some (content, false, 2 + n)
    | none => none
  else none

/-- Fueled scan of one text node: non-matching characters are copied,
each match registers `wrapLatex(trim content, inline)` and emits the
token of the new index. -/
def texScanGo : Nat → List String → List Char → List String × List Char
  | 0, snips, l => (snips, l)
  | _ + 1, snips, [] => (snips, [])
  | fuel + 1, snips, c :: rest =>
    match texMatchAt (c :: rest) with
    | some (content, inline, n) =>
      let reg := createMathPlaceholder snips ⟨jsTrim content⟩ inline
      let r := texScanGo fuel reg.1 ((c :: rest).drop n)
      (r.1, reg.2.data ++ r.2)
    | none =>
      let r := texScanGo fuel snips rest
      (r.1, c :: r.2)

/-- `convertInlineTeXTextNodes` on a single text node: returns the
grown registry and the rewritten text. -/
def convertInlineTeXTextNodes (snips : List String) (text : String) :
    List String × String :=
  let r := texScanGo text.data.length snips text.data
  (r.1, ⟨r.2⟩)

/-! ## Trigger engine fingerprint (userscript `Engine.handleTrigger`) -/

/-- `normalizeInvisibleUnicode`: remove zero-width characters and BOM. -/
def normalizeInvisibleUnicode (s : String) : String :=
  ⟨s.data.filter (fun c => !(8203 ≤ c.toNat && c.toNat ≤ 8205) && c.toNat ≠ 65279)⟩

/-- UTF-16 code units of a character. -/
def utf16Units (c : Char) : List Nat :=
  if c.toNat < 65536 then [c.toNat]
  else [55296 + (c.toNat - 65536) / 1024, 56320 + (c.toNat - 65536) % 1024]

/-- UTF-16 code units of a string, the unit sequence that JavaScript
indexing, `slice`, and `charCodeAt` operate on. -/
def utf16Of (s : String) : List Nat :=
  s.data.foldr (fun c acc => utf16Units c ++ acc) []

/-- One step of the FNV-1a loop of `stableHash`: xor the code unit and
multiply by the prime in 32-bit arithmetic (`Math.imul`). -/
def fnvStep (h u : Nat) : Nat := ((h ^^^ u) * 16777619) % 4294967296

/-- The accumulator of `stableHash` over a unit sequence. -/
def fnvHash (units : List Nat) : Nat := units.foldl fnvStep 2166136261

/-- Lowercase hexadecimal digit. -/
def hexDigitChar (n : Nat) : Char :=
  if n < 10 then Char.ofNat (48 + n) else Char.ofNat (87 + n)

/-- Hexadecimal digits (at most eight, enough for 32 bits). -/
def hexAux : Nat → Nat → List Char
  | 0, _ => []
  | fuel + 1, n =>
    if n = 0 then [] else hexAux fuel (n / 16) ++ [hexDigitChar (n % 16)]

/-- `(h >>> 0).toString(16)`. -/
def natToHex (n : Nat) : List Char := if n = 0 then ['0'] else hexAux 8 n

/-- `stableHash(str)`. -/
def stableHash (s : String) : String := ⟨natToHex (fnvHash (utf16Of s))⟩

/-- `stableHash((tmp.innerHTML || '').slice(0, 20000))`: the hash of
the first 20000 UTF-16 units of the serialized fragment. -/
def htmlSigOf (html : String) : String :=
  ⟨natToHex (fnvHash ((utf16Of html).take 20000))⟩

/-- The duplicate-run fingerprint
`stableHash(text + '|' + htmlSig)`. -/
def computeSig (selText fragHtml : String) : String :=
  stableHash (normalizeInvisibleUnicode selText ++ "|" ++ htmlSigOf fragHtml)

/-- The coordination state of the trigger engine. -/
structure EngineState where
  lastSig : Option String
  cooldownUntil : Nat
  inFlight : Bool
  queued : Bool

/-- One invocation of `Engine.handleTrigger`: the guards in source
order (cooldown, selection validity, editable target, blank text,
unchanged fingerprint, re-entrancy), returning the new state and
whether the conversion pipeline ran and a clipboard write was
attempted.  The in-flight flag is restored before returning, as the
synchronous body does. -/
def handleTrigger (st : EngineState) (now : Nat) (selValid editable : Bool)
    (selText fragHtml : String) : EngineState × Bool :=
  if now < st.cooldownUntil then (st, false)
  else
    let st1 : EngineState := { st with cooldownUntil := now + 80 }
    if !selValid then (st1, false)
    else if editable then (st1, false)
    else
      let text := normalizeInvisibleUnicode selText
      if jsTrimS text = "" then (st1, false)
      else
        let sig := computeSig selText fragHtml
        if st1.lastSig = some sig then (st1, false)
        else
          let st2 : EngineState := { st1 with lastSig := some sig }
          if st2.inFlight then ({ st2 with queued := true }, false)
          else (st2, true)

-- ===================================================================
-- THEOREMS
-- ===================================================================

/-! ### Brace-scan characterization (claim C3) -/

theorem prefixDepth_nil (k : Nat) : prefixDepth [] k = 0 := by
  simp [prefixDepth]

theorem prefixDepth_zero (l : List Char) : prefixDepth l 0 = 0 := by
  simp [prefixDepth]

theorem prefixDepth_cons (c : Char) (t : List Char) (k : Nat) :
    prefixDepth (c :: t) (k + 1) = braceDelta c + prefixDepth t k := by
  simp [prefixDepth]

theorem braceScan_update (c : Char) (d : Int) :
    (if c = '\x7b' then d + 1 else if c = '\x7d' then d - 1 else d) = d + braceDelta c := by
  simp only [braceDelta]
  by_cases h1 : c = '\x7b'
  · simp [h1]
  · by_cases h2 : c = '\x7d'
    · simp [h1, h2]
      omega
    · simp [h1, h2]

/-- The depth-scanning loop accepts exactly when every proper nonempty
prefix has positive depth and the total depth is zero. -/
theorem braceScan_iff (l : List Char) : ∀ (d : Int),
    braceScan l d = true ↔
      ((∀ k < l.length, 0 < k → 0 < d + prefixDepth l k) ∧
        d + prefixDepth l l.length = 0) := by
  induction l with
  | nil =>
    intro d
    simp [braceScan, prefixDepth_nil]
  | cons c t ih =>
    intro d
    rw [show braceScan (c :: t) d =
      (if d + braceDelta c = 0 && !t.isEmpty then false
       else if d + braceDelta c < 0 then false
       else braceScan t (d + braceDelta c)) from by
        simp only [braceScan, braceScan_update]]
    cases t with
    | nil =>
      have hpd : prefixDepth [c] 1 = braceDelta c + prefixDepth ([] : List Char) 0 :=
        prefixDepth_cons c [] 0
      have hz := prefixDepth_nil 0
      simp only [List.isEmpty_nil, Bool.not_true, Bool.and_false, Bool.false_eq_true,
        if_false, List.length_cons, List.length_nil, Nat.zero_add]
      constructor
      · intro h
        by_cases hneg : d + braceDelta c < 0
        · rw [if_pos hneg] at h
          exact absurd h (by simp)
        · rw [if_neg hneg] at h
          have he : d + braceDelta c = 0 := by
            simpa [braceScan] using h
          exact ⟨fun k hk hk0 => by omega, by omega⟩
      · intro ⟨_, h2⟩
        have he : d + braceDelta c = 0 := by omega
        rw [if_neg (by omega)]
        simp [braceScan, he]
    | cons x t' =>
      constructor
      · intro h
        by_cases h0 : d + braceDelta c = 0
        · rw [if_pos (by simp [h0])] at h
          exact absurd h (by simp)
        · by_cases hneg : d + braceDelta c < 0
          · rw [if_neg (by simp [h0]), if_pos hneg] at h
            exact absurd h (by simp)
          · rw [if_neg (by simp [h0]), if_neg hneg] at h
            have hpos : 0 < d + braceDelta c := by omega
            obtain ⟨ha, hb⟩ := (ih (d + braceDelta c)).mp h
            constructor
            · intro k hk hk0
              match k, hk0 with
              | 1, _ =>
                have hp : prefixDepth (c :: x :: t') 1
                    = braceDelta c + prefixDepth (x :: t') 0 :=
                  prefixDepth_cons c (x :: t') 0
                have hz := prefixDepth_zero (x :: t')
                omega
              | j + 2, _ =>
                have hp : prefixDepth (c :: x :: t') (j + 2)
                    = braceDelta c + prefixDepth (x :: t') (j + 1) :=
                  prefixDepth_cons c (x :: t') (j + 1)
                have hj : j + 1 < (x :: t').length := by
                  simp only [List.length_cons] at hk ⊢
                  omega
                have h2 := ha (j + 1) hj (by omega)
                omega
            · have hp : prefixDepth (c :: x :: t') ((x :: t').length + 1)
                  = braceDelta c + prefixDepth (x :: t') (x :: t').length :=
                prefixDepth_cons c (x :: t') (x :: t').length
              have hlen2 : (c :: x :: t').length = (x :: t').length + 1 := by
                simp [List.length_cons]
              rw [hlen2]
              omega
      · intro ⟨ha, hb⟩
        have hp1 : prefixDepth (c :: x :: t') 1 = braceDelta c + prefixDepth (x :: t') 0 :=
          prefixDepth_cons c (x :: t') 0
        have hz := prefixDepth_zero (x :: t')
        have h1 := ha 1 (by simp only [List.length_cons]; omega) (by omega)
        have hpos : 0 < d + braceDelta c := by omega
        rw [if_neg (by
          simp only [List.isEmpty_cons, Bool.not_false, Bool.and_true, decide_eq_true_eq]
          omega), if_neg (by omega)]
        refine (ih (d + braceDelta c)).mpr ⟨?_, ?_⟩
        · intro j hj hj0
          have hp : prefixDepth (c :: x :: t') (j + 1)
              = braceDelta c + prefixDepth (x :: t') j :=
            prefixDepth_cons c (x :: t') j
          have h2 := ha (j + 1) (by simp only [List.length_cons] at hj ⊢; omega) (by omega)
          omega
        · have hp : prefixDepth (c :: x :: t') ((x :: t').length + 1)
              = braceDelta c + prefixDepth (x :: t') (x :: t').length :=
            prefixDepth_cons c (x :: t') (x :: t').length
          have hlen2 : (c :: x :: t').length = (x :: t').length + 1 := by
            simp [List.length_cons]
          rw [hlen2] at hb
          omega

/-- Claim C3 (amended): after the initial whitespace trim performed by
the function, the outer brace pair is removed exactly when the trimmed
string is one balanced brace group spanning the whole string (it starts
with an opening brace, ends with a closing brace, and the depth first
returns to zero at the final character); any other trimmed string is
returned as trimmed.  In particular a trimmed `{a+b}` is stripped while
`{a}{b}` and unbalanced strings are returned unchanged. -/
theorem stripOuterBalancedBracesOnce_characterization (s : String) :
    stripOuterBalancedBracesOnce s =
      if braceGroupSpansWholeB (jsTrimS s).data then ⟨((jsTrimS s).data.drop 1).dropLast⟩
      else jsTrimS s := by
  have hiff := braceScan_iff (jsTrimS s).data 0
  simp only [stripOuterBalancedBracesOnce]
  by_cases hh : (jsTrimS s).data.head? = some '\x7b'
  · by_cases hl : (jsTrimS s).data.getLast? = some '\x7d'
    · have hcond : braceGroupSpansWholeB (jsTrimS s).data = braceScan (jsTrimS s).data 0 := by
        by_cases hscan : braceScan (jsTrimS s).data 0 = true
        · obtain ⟨ha, hb⟩ := hiff.mp hscan
          rw [hscan]
          simp only [braceGroupSpansWholeB, hh, hl, Bool.and_eq_true, decide_eq_true_eq]
          exact ⟨⟨⟨trivial, trivial⟩, fun k hk h0 => by simpa using ha k hk h0⟩,
            by simpa using hb⟩
        · have hfalse : braceScan (jsTrimS s).data 0 = false := Bool.eq_false_iff.mpr hscan
          rw [hfalse]
          apply Bool.eq_false_iff.mpr
          intro hcon
          apply hscan
          simp only [braceGroupSpansWholeB, hh, hl, Bool.and_eq_true,
            decide_eq_true_eq] at hcon
          exact hiff.mpr ⟨fun k hk h0 => by simpa using hcon.1.2 k hk h0,
            by simpa using hcon.2⟩
      rw [if_pos (by simp [hh, hl]), hcond]
    · rw [if_neg (by simp [hl]), if_neg (by simp [braceGroupSpansWholeB, hl])]
  · rw [if_neg (by simp [hh]), if_neg (by simp [braceGroupSpansWholeB, hh])]

/-- Claim C3 (counterexample to the original statement): the input
`" a "` neither starts with `{` nor ends with `}`, so by the claim it
must be returned unchanged, yet the function returns `"a"` (the
function trims before testing). -/
theorem stripOuterBraces_trim_counterexample :
    stripOuterBalancedBracesOnce " a " = "a" ∧
      (" a ").data.head? ≠ some '\x7b' ∧ ("a" : String) ≠ " a " := by
  refine ⟨by decide, by decide, by decide⟩

/-- Fuel above the input length is irrelevant as long as each match
consumes at least one character. -/
theorem scanGo_fuel (step : List Char → Option (List Char × Nat))
    (hpos : ∀ l e n, step l = some (e, n) → 1 ≤ n) :
    ∀ (fuel : Nat) (l : List Char), l.length ≤ fuel →
      scanGo step fuel l = scanGo step l.length l := by
  intro fuel
  induction fuel using Nat.strong_induction_on with
  | _ fuel ih =>
    intro l hl
    match fuel, l with
    | 0, l =>
      interval_cases hl' : l.length
      · cases l with
        | nil => rfl
        | cons c r => simp at hl'
    | fuel + 1, [] => rfl
    | fuel + 1, c :: rest =>
      have hrest : rest.length ≤ fuel := by simpa using hl
      simp only [List.length_cons, scanGo]
      cases hstep : step (c :: rest) with
      | some en =>
        obtain ⟨e, n⟩ := en
        have hn : 1 ≤ n := hpos _ _ _ hstep
        have hd : ((c :: rest).drop n).length ≤ rest.length := by
          simp only [List.length_drop, List.length_cons]
          omega
        have h1 : scanGo step fuel ((c :: rest).drop n)
            = scanGo step ((c :: rest).drop n).length ((c :: rest).drop n) :=
          ih fuel (Nat.lt_succ_self fuel) _ (le_trans hd hrest)
        have h2 : scanGo step rest.length ((c :: rest).drop n)
            = scanGo step ((c :: rest).drop n).length ((c :: rest).drop n) :=
          ih rest.length (by omega) _ hd
        dsimp only
        rw [h1, h2]
      | none =>
        have h1 : scanGo step fuel rest = scanGo step rest.length rest :=
          ih fuel (Nat.lt_succ_self fuel) _ hrest
        dsimp only
        rw [h1]

/-! ### Digit and token lemmas -/

theorem digitChar_isDigit (m : Nat) (h : m < 10) : (digitChar m).isDigit = true := by
  interval_cases m <;> decide

theorem digitVal_digitChar (m : Nat) (h : m < 10) : digitVal (digitChar m) = m := by
  interval_cases m <;> decide

theorem isDigit_ne_at (c : Char) (h : c.isDigit = true) : c ≠ '@' := by
  intro hc
  subst hc
  exact absurd h (by decide)

theorem digitsOf_all_digit (n : Nat) : ∀ c ∈ digitsOf n, c.isDigit = true := by
  induction n using Nat.strong_induction_on with
  | _ n ih =>
    rw [digitsOf]
    split
    · next h =>
      intro c hc
      rw [List.mem_singleton] at hc
      subst hc
      exact digitChar_isDigit n h
    · next h =>
      intro c hc
      rw [List.mem_append] at hc
      cases hc with
      | inl hc => exact ih (n / 10) (Nat.div_lt_self (by omega) (by omega)) c hc
      | inr hc =>
        rw [List.mem_singleton] at hc
        subst hc
        exact digitChar_isDigit (n % 10) (Nat.mod_lt _ (by omega))

theorem digitsOf_ne_nil (n : Nat) : digitsOf n ≠ [] := by
  rw [digitsOf]
  split <;> simp

theorem natOfDigits_digitsOf (n : Nat) : natOfDigits (digitsOf n) = n := by
  induction n using Nat.strong_induction_on with
  | _ n ih =>
    rw [digitsOf]
    split
    · next h =>
      simp [natOfDigits, digitVal_digitChar n h]
    · next h =>
      have hlt : n / 10 < n := Nat.div_lt_self (by omega) (by omega)
      have hv := digitVal_digitChar (n % 10) (Nat.mod_lt _ (by omega))
      have hih := ih (n / 10) hlt
      simp only [natOfDigits, List.foldl_append, List.foldl_cons, List.foldl_nil] at hih ⊢
      rw [hih, hv]
      omega

theorem hasPre_append_self (p r : List Char) : hasPre p (p ++ r) = true := by
  induction p with
  | nil => rfl
  | cons c p ih => simp [hasPre, ih]

theorem takeWhile_append_all (p : Char → Bool) (a b : List Char)
    (h : ∀ c ∈ a, p c = true) :
    (a ++ b).takeWhile p = a ++ b.takeWhile p := by
  induction a with
  | nil => rfl
  | cons c a ih =>
    have hc : p c = true := h c (by simp)
    simp only [List.cons_append, List.takeWhile_cons, hc, if_true]
    rw [ih (fun x hx => h x (by simp [hx]))]

theorem phTok_length (tag : List Char) (i : Nat) :
    (phTok tag i).length = 2 + tag.length + (digitsOf i).length + 2 := by
  simp [phTok]
  omega

theorem tokSplit_phTok (tag : List Char) (i : Nat) (t : List Char) :
    tokSplit tag (phTok tag i ++ t) =
      some (i, 2 + tag.length + (digitsOf i).length + 2) := by
  have hshape : phTok tag i ++ t = '@' :: '@' :: (tag ++ (digitsOf i ++ '@' :: '@' :: t)) := by
    simp [phTok]
  rw [hshape]
  have hpre : hasPre ('@' :: '@' :: tag) ('@' :: '@' :: (tag ++ (digitsOf i ++ '@' :: '@' :: t))) = true := by
    simp [hasPre, hasPre_append_self]
  rw [tokSplit, if_pos hpre]
  have hdrop : List.drop (2 + tag.length) ('@' :: '@' :: (tag ++ (digitsOf i ++ '@' :: '@' :: t)))
      = digitsOf i ++ '@' :: '@' :: t := by
    rw [show 2 + tag.length = tag.length + 2 by omega]
    simp [List.drop_left]
  have htake : (digitsOf i ++ '@' :: '@' :: t).takeWhile Char.isDigit = digitsOf i := by
    rw [takeWhile_append_all Char.isDigit _ _ (digitsOf_all_digit i)]
    simp [List.takeWhile_cons]
  have hdrop2 : List.drop (digitsOf i).length (digitsOf i ++ '@' :: '@' :: t) = '@' :: '@' :: t :=
    List.drop_left _ _
  simp only [hdrop, htake, hdrop2, natOfDigits_digitsOf]
  rw [if_neg (by simp [digitsOf_ne_nil i])]
  rw [if_pos (by simp [hasPre])]

theorem tokSplit_pos (tag : List Char) (l : List Char) (i n : Nat)
    (h : tokSplit tag l = some (i, n)) : 1 ≤ n := by
  simp only [tokSplit] at h
  split at h
  · split at h
    · exact absurd h (by simp)
    · split at h
      · rw [Option.some.injEq, Prod.mk.injEq] at h
        omega
      · exact absurd h (by simp)
  · exact absurd h (by simp)

theorem phStep_pos (tag : List Char) (tbl : List String) :
    ∀ l e n, phStep tag tbl l = some (e, n) → 1 ≤ n := by
  intro l e n h
  rw [phStep] at h
  split at h
  · next i m heq =>
    rw [Option.some.injEq, Prod.mk.injEq] at h
    obtain ⟨-, h2⟩ := h
    subst h2
    exact tokSplit_pos tag l i m heq
  · exact absurd h (by simp)

theorem hasPre_false_of_head (p : List Char) (a c : Char) (t : List Char)
    (h : a ≠ c) : hasPre (a :: p) (c :: t) = false := by
  simp [hasPre, h]

theorem tokSplit_none_of_not_pre (tag : List Char) (l : List Char)
    (h : hasPre ('@' :: '@' :: tag) l = false) : tokSplit tag l = none := by
  rw [tokSplit, if_neg (by simp [h])]

theorem phStep_none_of_not_pre (tag : List Char) (tbl : List String) (l : List Char)
    (h : hasPre ('@' :: '@' :: tag) l = false) : phStep tag tbl l = none := by
  rw [phStep, tokSplit_none_of_not_pre tag l h]

theorem phStep_none_of_head (tag : List Char) (tbl : List String) (c : Char)
    (t : List Char) (h : c ≠ '@') : phStep tag tbl (c :: t) = none := by
  apply phStep_none_of_not_pre
  exact hasPre_false_of_head _ _ _ _ (fun hx => h hx.symm)

theorem scanRun_nil (step : List Char → Option (List Char × Nat)) :
    scanRun step [] = [] := rfl

theorem scanRun_skip (step : List Char → Option (List Char × Nat)) (c : Char)
    (t : List Char) (h : step (c :: t) = none) :
    scanRun step (c :: t) = c :: scanRun step t := by
  simp [scanRun, List.length_cons, scanGo, h]

theorem scanRun_consume (step : List Char → Option (List Char × Nat))
    (hpos : ∀ l e n, step l = some (e, n) → 1 ≤ n)
    (l e : List Char) (n : Nat) (hsome : step l = some (e, n)) (hn : n ≤ l.length) :
    scanRun step l = e ++ scanRun step (l.drop n) := by
  cases l with
  | nil =>
    have := hpos [] e n hsome
    simp at hn
    omega
  | cons c t =>
    have h1 : scanGo step t.length ((c :: t).drop n)
        = scanGo step ((c :: t).drop n).length ((c :: t).drop n) := by
      apply scanGo_fuel step hpos
      have := hpos _ _ _ hsome
      simp only [List.length_drop, List.length_cons]
      simp only [List.length_cons] at hn
      omega
    simp only [scanRun, List.length_cons, scanGo, hsome]
    rw [h1]

theorem phRun_lit (tag : List Char) (tbl : List String) (s t : List Char)
    (hs : ∀ c ∈ s, c ≠ '@') :
    scanRun (phStep tag tbl) (s ++ t) = s ++ scanRun (phStep tag tbl) t := by
  induction s with
  | nil => rfl
  | cons c s ih =>
    have hc : c ≠ '@' := hs c (by simp)
    calc scanRun (phStep tag tbl) ((c :: s) ++ t)
        = c :: scanRun (phStep tag tbl) (s ++ t) :=
          scanRun_skip (phStep tag tbl) c (s ++ t) (phStep_none_of_head tag tbl c _ hc)
      _ = c :: (s ++ scanRun (phStep tag tbl) t) := by
          rw [ih (fun x hx => hs x (by simp [hx]))]
      _ = (c :: s) ++ scanRun (phStep tag tbl) t := rfl

theorem phRun_consume (tag : List Char) (tbl : List String) (i : Nat) (t : List Char) :
    scanRun (phStep tag tbl) (phTok tag i ++ t)
      = (tbl.getD i "").data ++ scanRun (phStep tag tbl) t := by
  have hstep : phStep tag tbl (phTok tag i ++ t)
      = some ((tbl.getD i "").data, 2 + tag.length + (digitsOf i).length + 2) := by
    rw [phStep, tokSplit_phTok]
  have hdrop : (phTok tag i ++ t).drop (2 + tag.length + (digitsOf i).length + 2) = t :=
    List.drop_left' (by rw [phTok_length])
  rw [scanRun_consume _ (phStep_pos tag tbl) _ _ _ hstep
    (by rw [List.length_append, phTok_length]; omega), hdrop]

/-! ### Restore passes over transpiled segments (claims C1, C2) -/

theorem phRun_math_over_ctok (M : List String) (i : Nat) (t : List Char)
    (h1 : hasPre mathTagChars t = false)
    (h2 : hasPre ('@' :: mathTagChars) t = false) :
    scanRun (phStep mathTagChars M) (phTok codeTagChars i ++ t)
      = phTok codeTagChars i ++ scanRun (phStep mathTagChars M) t := by
  have hshape : phTok codeTagChars i ++ t
      = '@' :: '@' :: 'C' :: 'O' :: 'D' :: 'E' :: (digitsOf i ++ '@' :: '@' :: t) := by
    simp [phTok, codeTagChars]
  have s0 : phStep mathTagChars M
      ('@' :: '@' :: 'C' :: 'O' :: 'D' :: 'E' :: (digitsOf i ++ '@' :: '@' :: t)) = none := by
    apply phStep_none_of_not_pre
    simp [mathTagChars, hasPre]
  have s1 : phStep mathTagChars M
      ('@' :: 'C' :: 'O' :: 'D' :: 'E' :: (digitsOf i ++ '@' :: '@' :: t)) = none := by
    apply phStep_none_of_not_pre
    simp [mathTagChars, hasPre]
  have sAt2 : phStep mathTagChars M ('@' :: '@' :: t) = none := by
    apply phStep_none_of_not_pre
    simp only [hasPre, decide_eq_true_eq, Bool.true_and]
    simpa [mathTagChars] using h1
  have sAt1 : phStep mathTagChars M ('@' :: t) = none := by
    apply phStep_none_of_not_pre
    simp only [hasPre, decide_eq_true_eq, Bool.true_and]
    simpa [mathTagChars] using h2
  rw [hshape]
  rw [scanRun_skip _ _ _ s0, scanRun_skip _ _ _ s1,
    scanRun_skip _ _ _ (phStep_none_of_head _ _ 'C' _ (by decide)),
    scanRun_skip _ _ _ (phStep_none_of_head _ _ 'O' _ (by decide)),
    scanRun_skip _ _ _ (phStep_none_of_head _ _ 'D' _ (by decide)),
    scanRun_skip _ _ _ (phStep_none_of_head _ _ 'E' _ (by decide))]
  rw [phRun_lit _ _ _ _ (fun c hc => isDigit_ne_at c (digitsOf_all_digit i c hc))]
  rw [scanRun_skip _ _ _ sAt2, scanRun_skip _ _ _ sAt1]
  simp [phTok, codeTagChars]

theorem renderSegs_not_mathPre (M C : List String) (segs : List Seg)
    (hok : ∀ seg ∈ segs, segOk M C seg) :
    hasPre mathTagChars (renderSegs segs) = false ∧
      hasPre ('@' :: mathTagChars) (renderSegs segs) = false := by
  cases segs with
  | nil => exact ⟨rfl, rfl⟩
  | cons seg rest =>
    cases seg with
    | lit s =>
      obtain ⟨hne, hat, hhead⟩ := hok (.lit s) (by simp)
      cases hsd : s.data with
      | nil => exact absurd hsd hne
      | cons c cs =>
        rw [hsd] at hhead
        simp only [headNotTag, Bool.and_eq_true, decide_eq_true_eq] at hhead
        have hcat : c ≠ '@' := hat c (by rw [hsd]; simp)
        have hr : renderSegs (Seg.lit s :: rest) = c :: (cs ++ renderSegs rest) := by
          simp [renderSegs, renderSeg, hsd]
        rw [hr]
        constructor
        · exact hasPre_false_of_head _ _ _ _ (fun hx => hhead.1 hx.symm)
        · exact hasPre_false_of_head _ _ _ _ (fun hx => hcat hx.symm)
    | mtok i =>
      constructor <;> simp [renderSegs, renderSeg, phTok, mathTagChars, hasPre]
    | ctok i =>
      constructor <;> simp [renderSegs, renderSeg, phTok, codeTagChars, mathTagChars, hasPre]

theorem mathPass (M C : List String) (segs : List Seg)
    (hok : ∀ seg ∈ segs, segOk M C seg) :
    scanRun (phStep mathTagChars M) (renderSegs segs)
      = renderSegs (segs.map (mapMathSeg M)) := by
  induction segs with
  | nil => rfl
  | cons seg rest ih =>
    have hrest : ∀ s ∈ rest, segOk M C s := fun s hs => hok s (by simp [hs])
    have ihr := ih hrest
    cases seg with
    | lit s =>
      obtain ⟨hne, hat, hhead⟩ := hok (.lit s) (by simp)
      show scanRun (phStep mathTagChars M) (s.data ++ renderSegs rest)
        = s.data ++ renderSegs (rest.map (mapMathSeg M))
      rw [phRun_lit _ _ _ _ hat, ihr]
    | mtok i =>
      show scanRun (phStep mathTagChars M) (phTok mathTagChars i ++ renderSegs rest)
        = (M.getD i "").data ++ renderSegs (rest.map (mapMathSeg M))
      rw [phRun_consume, ihr]
    | ctok i =>
      obtain ⟨hm1, hm2⟩ := renderSegs_not_mathPre M C rest hrest
      show scanRun (phStep mathTagChars M) (phTok codeTagChars i ++ renderSegs rest)
        = phTok codeTagChars i ++ renderSegs (rest.map (mapMathSeg M))
      rw [phRun_math_over_ctok M i _ hm1 hm2, ihr]

theorem codePass (C : List String) (segs : List Seg)
    (hat : ∀ s, Seg.lit s ∈ segs → ∀ c ∈ s.data, c ≠ '@')
    (hnoM : ∀ seg ∈ segs, segNoM seg) :
    scanRun (phStep codeTagChars C) (renderSegs segs)
      = renderSegs (segs.map (mapCodeSeg C)) := by
  induction segs with
  | nil => rfl
  | cons seg rest ih =>
    have ihr := ih (fun s hs => hat s (by simp [hs])) (fun s hs => hnoM s (by simp [hs]))
    cases seg with
    | lit s =>
      show scanRun (phStep codeTagChars C) (s.data ++ renderSegs rest)
        = s.data ++ renderSegs (rest.map (mapCodeSeg C))
      rw [phRun_lit _ _ _ _ (hat s (by simp)), ihr]
    | mtok i => exact absurd (hnoM (.mtok i) (by simp)) (by simp [segNoM])
    | ctok i =>
      show scanRun (phStep codeTagChars C) (phTok codeTagChars i ++ renderSegs rest)
        = (C.getD i "").data ++ renderSegs (rest.map (mapCodeSeg C))
      rw [phRun_consume, ihr]

theorem render_mapped_eq_resolve (M C : List String) (segs : List Seg) :
    renderSegs ((segs.map (mapMathSeg M)).map (mapCodeSeg C)) = resolveSegs M C segs := by
  induction segs with
  | nil => rfl
  | cons seg rest ih =>
    cases seg <;>
      (simp only [List.map_cons, renderSegs, renderSeg, mapMathSeg, mapCodeSeg,
        resolveSegs]
       rw [ih])

theorem containsPhToken_false (l : List Char) (h : ∀ c ∈ l, c ≠ '@') :
    containsPhToken l = false := by
  induction l with
  | nil => rfl
  | cons c rest ih =>
    have hc : c ≠ '@' := h c (by simp)
    have h1 : tokSplit mathTagChars (c :: rest) = none :=
      tokSplit_none_of_not_pre _ _ (hasPre_false_of_head _ _ _ _ (fun hx => hc hx.symm))
    have h2 : tokSplit codeTagChars (c :: rest) = none :=
      tokSplit_none_of_not_pre _ _ (hasPre_false_of_head _ _ _ _ (fun hx => hc hx.symm))
    simp [containsPhToken, h1, h2, ih (fun x hx => h x (by simp [hx]))]

theorem resolveSegs_no_at (M C : List String) (segs : List Seg)
    (hok : ∀ seg ∈ segs, segOk M C seg)
    (hM : ∀ s ∈ M, spliceSafe s) (hC : ∀ s ∈ C, spliceSafe s) :
    ∀ c ∈ resolveSegs M C segs, c ≠ '@' := by
  induction segs with
  | nil => simp [resolveSegs]
  | cons seg rest ih =>
    have ihr := ih (fun s hs => hok s (by simp [hs]))
    cases seg with
    | lit s =>
      intro c hc
      rw [show resolveSegs M C (Seg.lit s :: rest) = s.data ++ resolveSegs M C rest
        from rfl, List.mem_append] at hc
      cases hc with
      | inl hc => exact (hok (.lit s) (by simp)).2.1 c hc
      | inr hc => exact ihr c hc
    | mtok i =>
      intro c hc
      rw [show resolveSegs M C (Seg.mtok i :: rest)
        = (M.getD i "").data ++ resolveSegs M C rest from rfl, List.mem_append] at hc
      cases hc with
      | inl hc =>
        have hi : i < M.length := hok (.mtok i) (by simp)
        rw [List.getD_eq_getElem M "" hi] at hc
        exact (hM M[i] (List.getElem_mem hi)).2.1 c hc
      | inr hc => exact ihr c hc
    | ctok i =>
      intro c hc
      rw [show resolveSegs M C (Seg.ctok i :: rest)
        = (C.getD i "").data ++ resolveSegs M C rest from rfl, List.mem_append] at hc
      cases hc with
      | inl hc =>
        have hi : i < C.length := hok (.ctok i) (by simp)
        rw [List.getD_eq_getElem C "" hi] at hc
        exact (hC C[i] (List.getElem_mem hi)).2.1 c hc
      | inr hc => exact ihr c hc

theorem mapped_segs_props (M C : List String) (segs : List Seg)
    (hok : ∀ seg ∈ segs, segOk M C seg) (hM : ∀ s ∈ M, spliceSafe s) :
    (∀ s, Seg.lit s ∈ segs.map (mapMathSeg M) → ∀ c ∈ s.data, c ≠ '@') ∧
      (∀ seg ∈ segs.map (mapMathSeg M), segNoM seg) := by
  constructor
  · intro s hs
    rw [List.mem_map] at hs
    obtain ⟨a, ha, hmap⟩ := hs
    cases a with
    | lit u =>
      simp only [mapMathSeg, Seg.lit.injEq] at hmap
      subst hmap
      exact (hok (.lit u) ha).2.1
    | mtok i =>
      simp only [mapMathSeg, Seg.lit.injEq] at hmap
      subst hmap
      have hi : i < M.length := hok (.mtok i) ha
      rw [List.getD_eq_getElem M "" hi]
      exact (hM M[i] (List.getElem_mem hi)).2.1
    | ctok i =>
      simp [mapMathSeg] at hmap
  · intro seg hseg
    rw [List.mem_map] at hseg
    obtain ⟨a, ha, hmap⟩ := hseg
    cases a <;> (cases hmap; simp [segNoM, mapMathSeg])

/-- Claim C1 (amended): restoration is total over the tokens of the
transpiled Markdown — every token present in the input to the restore
passes is replaced by its registry entry — and the final output
contains no placeholder-shaped token, provided the literal text between
tokens and the registered snippets are splice-safe (nonempty, free of
`@`, and not beginning with the tag letters `M` or `C`) and token
indices are registered.  Without
these provisos a registered snippet that itself contains token-shaped
text (claim C2's own guarantee) survives into the output, so the
original unconditional statement fails. -/
theorem c1_restoration_amended (segs : List Seg) (M C : List String)
    (hok : ∀ seg ∈ segs, segOk M C seg)
    (hM : ∀ s ∈ M, spliceSafe s) (hC : ∀ s ∈ C, spliceSafe s) :
    restoreCodePlaceholders C (restoreMathPlaceholders M ⟨renderSegs segs⟩)
        = ⟨resolveSegs M C segs⟩ ∧
      containsPhToken (restoreCodePlaceholders C
        (restoreMathPlaceholders M ⟨renderSegs segs⟩)).data = false := by
  obtain ⟨hlit, hnoM⟩ := mapped_segs_props M C segs hok hM
  have hmain : restoreCodePlaceholders C (restoreMathPlaceholders M ⟨renderSegs segs⟩)
      = ⟨resolveSegs M C segs⟩ := by
    simp only [restoreMathPlaceholders, restoreCodePlaceholders]
    rw [mathPass M C segs hok, codePass C _ hlit hnoM, render_mapped_eq_resolve]
  refine ⟨hmain, ?_⟩
  rw [hmain]
  exact containsPhToken_false _ (resolveSegs_no_at M C segs hok hM hC)

/-- Claim C1 (witness): a run with one literal, one math unit, and one
code unit, all well-formed. -/
theorem c1_restoration_witness :
    restoreCodePlaceholders ["```\ny\n```"]
        (restoreMathPlaceholders ["$a+b$"]
          ⟨renderSegs [Seg.lit "x ", Seg.mtok 0, Seg.ctok 0]⟩)
        = ⟨resolveSegs ["$a+b$"] ["```\ny\n```"] [Seg.lit "x ", Seg.mtok 0, Seg.ctok 0]⟩ ∧
      containsPhToken (restoreCodePlaceholders ["```\ny\n```"]
        (restoreMathPlaceholders ["$a+b$"]
          ⟨renderSegs [Seg.lit "x ", Seg.mtok 0, Seg.ctok 0]⟩)).data = false := by
  apply c1_restoration_amended
  · intro seg hseg
    simp only [List.mem_cons, List.not_mem_nil, or_false] at hseg
    rcases hseg with rfl | rfl | rfl
    · exact ⟨by decide, by decide, by decide⟩
    · show 0 < 1
      decide
    · show 0 < 1
      decide
  · intro s hs
    simp only [List.mem_singleton] at hs
    subst hs
    exact ⟨by decide, by decide, by decide⟩
  · intro s hs
    simp only [List.mem_singleton] at hs
    subst hs
    exact ⟨by decide, by decide, by decide⟩

/-- Claim C1 (counterexample to the original statement): a selection
containing one resolvable code unit — a `pre` block whose body is the
literal text `@@MATH0@@` — produces, after both restore passes, an
output that still contains a substring of placeholder-token shape. -/
theorem c1_token_remains_counterexample :
    containsPhToken (restoreCodePlaceholders (createCodePlaceholder [] "@@MATH0@@" "").1
      (restoreMathPlaceholders [] "@@CODE0@@")).data = true := by decide

/-- Claim C2 (amended): math placeholders are restored before code
placeholders, and replacements are never rescanned.  In a well-formed
run — the transpiled text decomposes into registered tokens and
splice-safe literal segments — the math pass replaces exactly the math
tokens and leaves every code token of the run in place (the mapped
segment list keeps each `ctok` unchanged); a registered code token is
then substituted exactly once by the code pass, with the body spliced
byte-for-byte, so math-token-shaped text inside a registered code body
appears literally in the output.  Conversely, however, the output for a
math token is the registered math snippet passed through the code
restore pass: a code-token-shaped substring inside restored math
content IS substituted by the subsequent code pass — the original
claim's second half fails (see the counterexample). -/
theorem c2_order_amended (M C : List String) (segs : List Seg)
    (hok : ∀ seg ∈ segs, segOk M C seg) :
    scanRun (phStep mathTagChars M) (renderSegs segs)
      = renderSegs (segs.map (mapMathSeg M)) ∧
    (∀ i : Nat, restoreCodePlaceholders C
        (restoreMathPlaceholders M ⟨phTok codeTagChars i⟩) = C.getD i "") ∧
    (∀ j : Nat, restoreCodePlaceholders C
        (restoreMathPlaceholders M ⟨phTok mathTagChars j⟩)
          = restoreCodePlaceholders C (M.getD j "")) := by
  refine ⟨mathPass M C segs hok, ?_, ?_⟩
  · intro i
    have h1 : scanRun (phStep mathTagChars M) (phTok codeTagChars i)
        = phTok codeTagChars i := by
      have h := phRun_math_over_ctok M i [] rfl rfl
      rwa [List.append_nil, scanRun_nil, List.append_nil] at h
    have h2 : scanRun (phStep codeTagChars C) (phTok codeTagChars i)
        = (C.getD i "").data := by
      have h := phRun_consume codeTagChars C i []
      rwa [List.append_nil, scanRun_nil, List.append_nil] at h
    simp only [restoreMathPlaceholders, restoreCodePlaceholders]
    rw [h1, h2]
  · intro j
    have h1 : scanRun (phStep mathTagChars M) (phTok mathTagChars j)
        = (M.getD j "").data := by
      have h := phRun_consume mathTagChars M j []
      rwa [List.append_nil, scanRun_nil, List.append_nil] at h
    have hinner : restoreMathPlaceholders M ⟨phTok mathTagChars j⟩ = M.getD j "" := by
      simp only [restoreMathPlaceholders]
      rw [h1]
    rw [hinner]

/-- Claim C2 (witness for the amended theorem): a well-formed run with
one splice-safe literal, one code token and one math token. -/
theorem c2_order_witness :
    scanRun (phStep mathTagChars ["$a$"])
        (renderSegs [Seg.lit "x ", Seg.ctok 0, Seg.mtok 0])
      = renderSegs ([Seg.lit "x ", Seg.ctok 0, Seg.mtok 0].map (mapMathSeg ["$a$"])) ∧
    (∀ i : Nat, restoreCodePlaceholders ["b"]
        (restoreMathPlaceholders ["$a$"] ⟨phTok codeTagChars i⟩)
          = (["b"] : List String).getD i "") ∧
    (∀ j : Nat, restoreCodePlaceholders ["b"]
        (restoreMathPlaceholders ["$a$"] ⟨phTok mathTagChars j⟩)
          = restoreCodePlaceholders ["b"] ((["$a$"] : List String).getD j "")) := by
  apply c2_order_amended
  intro seg hseg
  simp only [List.mem_cons, List.not_mem_nil, or_false] at hseg
  rcases hseg with rfl | rfl | rfl
  · exact ⟨by decide, by decide, by decide⟩
  · show 0 < 1
    decide
  · show 0 < 1
    decide

/-- Claim C2 (counterexample to the second half of the original
statement): a math unit whose LaTeX is the literal text `@@CODE0@@`
(as the raw-TeX scan can register from the text `\(@@CODE0@@\)`) is
restored first, and the subsequent code pass substitutes the code body
inside the restored math content. -/
theorem c2_substitution_counterexample :
    restoreCodePlaceholders (createCodePlaceholder [] "x" "").1
        (restoreMathPlaceholders [wrapLatex "@@CODE0@@" true] "@@MATH0@@")
      = "$```\nx\n```$" ∧
      restoreCodePlaceholders (createCodePlaceholder [] "x" "").1
        (restoreMathPlaceholders [wrapLatex "@@CODE0@@" true] "@@MATH0@@")
      ≠ "$@@CODE0@@$" := ⟨by decide, by decide⟩

/-! ### Code body sanitization (claim C8) -/

theorem head_dropWhile_not (p : Char → Bool) (l : List Char) (a : Char)
    (h : (l.dropWhile p).head? = some a) : p a = false := by
  induction l with
  | nil => exact absurd h (by simp)
  | cons c rest ih =>
    rw [List.dropWhile_cons] at h
    split at h
    · exact ih h
    · next hp =>
      rw [List.head?_cons, Option.some.injEq] at h
      subst h
      simpa using hp

theorem mem_takeWhile_sat (p : Char → Bool) (l : List Char) (a : Char)
    (h : a ∈ l.takeWhile p) : p a = true := by
  induction l with
  | nil => exact absurd h (by simp)
  | cons c rest ih =>
    rw [List.takeWhile_cons] at h
    split at h
    · next hp =>
      rw [List.mem_cons] at h
      cases h with
      | inl h => subst h; exact hp
      | inr h => exact ih h
    · exact absurd h (by simp)

theorem rev_split_trailing (p : Char → Bool) (l : List Char) :
    l = (l.reverse.dropWhile p).reverse ++ (l.reverse.takeWhile p).reverse := by
  calc l = l.reverse.reverse := (List.reverse_reverse l).symm
    _ = (l.reverse.takeWhile p ++ l.reverse.dropWhile p).reverse := by
        rw [List.takeWhile_append_dropWhile]
    _ = (l.reverse.dropWhile p).reverse ++ (l.reverse.takeWhile p).reverse :=
        List.reverse_append _ _

theorem uiLabelSplit_suffix (l r : List Char) (h : uiLabelSplit l = some r) :
    ∃ p, l = p ++ r := by
  rw [uiLabelSplit] at h
  split at h
  · rw [Option.some.injEq] at h
    have s1 : List.IsSuffix (((((l.dropWhile jsWs).drop 4).dropWhile jsWs).drop 8).dropWhile jsWs)
        ((((l.dropWhile jsWs).drop 4).dropWhile jsWs).drop 8) := List.dropWhile_suffix jsWs
    have s2 : List.IsSuffix ((((l.dropWhile jsWs).drop 4).dropWhile jsWs).drop 8)
        (((l.dropWhile jsWs).drop 4).dropWhile jsWs) := List.drop_suffix 8 _
    have s3 : List.IsSuffix (((l.dropWhile jsWs).drop 4).dropWhile jsWs)
        ((l.dropWhile jsWs).drop 4) := List.dropWhile_suffix jsWs
    have s4 : List.IsSuffix ((l.dropWhile jsWs).drop 4) (l.dropWhile jsWs) :=
      List.drop_suffix 4 _
    have s5 : List.IsSuffix (l.dropWhile jsWs) l := List.dropWhile_suffix jsWs
    obtain ⟨p, hp⟩ := s1.trans (s2.trans (s3.trans (s4.trans s5)))
    exact ⟨p, by rw [← hp, h]⟩
  · split at h
    · rw [Option.some.injEq] at h
      have s1 : List.IsSuffix (((((l.dropWhile jsWs).drop 4).dropWhile jsWs).drop 4).dropWhile jsWs)
          ((((l.dropWhile jsWs).drop 4).dropWhile jsWs).drop 4) := List.dropWhile_suffix jsWs
      have s2 : List.IsSuffix ((((l.dropWhile jsWs).drop 4).dropWhile jsWs).drop 4)
          (((l.dropWhile jsWs).drop 4).dropWhile jsWs) := List.drop_suffix 4 _
      have s3 : List.IsSuffix (((l.dropWhile jsWs).drop 4).dropWhile jsWs)
          ((l.dropWhile jsWs).drop 4) := List.dropWhile_suffix jsWs
      have s4 : List.IsSuffix ((l.dropWhile jsWs).drop 4) (l.dropWhile jsWs) :=
        List.drop_suffix 4 _
      have s5 : List.IsSuffix (l.dropWhile jsWs) l := List.dropWhile_suffix jsWs
      obtain ⟨p, hp⟩ := s1.trans (s2.trans (s3.trans (s4.trans s5)))
      exact ⟨p, by rw [← hp, h]⟩
    · exact absurd h (by simp)

theorem dropTrail_getLast_ne (p : Char → Bool) (l : List Char) (a : Char)
    (ha : p a = true) : (l.reverse.dropWhile p).reverse.getLast? ≠ some a := by
  intro h
  rw [List.getLast?_reverse] at h
  have hfalse := head_dropWhile_not p _ _ h
  rw [ha] at hfalse
  exact absurd hfalse (by simp)

/-- Claim C8 (amended): the code body carried into the restored
Markdown is a contiguous byte-identical substring of the source
`textContent`: the sanitizer removes only a leading region (the
recognized copy-button label together with the whitespace around it,
and nothing when no label matches) and a trailing run consisting
exclusively of newline characters — not trailing blank lines: a final
whitespace-only line with non-newline whitespace survives without its
newline.  The registered snippet is exactly the fenced block around
that sanitized body, and the restore passes splice it byte-for-byte
into the restored Markdown.  The original claim's byte-for-byte
preservation in the FINAL Markdown is false for a second reason: the
postprocessing sequence can alter fence interiors (see the
counterexample). -/
theorem c8_sanitize_amended (t : String) (C0 : List String) :
    (∃ p s, t.data = p ++ (sanitizeCodeText t).data ++ s ∧
      s.all (fun c => c = '\n') = true ∧
      (sanitizeCodeText t).data.getLast? ≠ some '\n' ∧
      (uiLabelSplit t.data ≠ none ∨ p = [])) ∧
    (createCodePlaceholder C0 t "").1
      = C0 ++ ["```\n" ++ sanitizeCodeText t ++ "\n```"] ∧
    restoreCodePlaceholders (createCodePlaceholder [] t "").1
        (restoreMathPlaceholders [] ⟨phTok codeTagChars 0⟩)
      = "```\n" ++ sanitizeCodeText t ++ "\n```" := by
  refine ⟨?_, rfl, ?_⟩
  · cases hu : uiLabelSplit t.data with
    | none =>
      have hs : sanitizeCodeText t
          = ⟨(t.data.reverse.dropWhile (fun c => c = '\n')).reverse⟩ := by
        simp only [sanitizeCodeText, hu]
      refine ⟨[], (t.data.reverse.takeWhile (fun c => c = '\n')).reverse, ?_, ?_, ?_,
        Or.inr rfl⟩
      · rw [hs]
        simpa using rev_split_trailing (fun c => decide (c = '\n')) t.data
      · rw [List.all_eq_true]
        intro c hc
        rw [List.mem_reverse] at hc
        exact mem_takeWhile_sat _ _ _ hc
      · rw [hs]
        exact dropTrail_getLast_ne _ _ _ (by decide)
    | some r =>
      obtain ⟨p, hp⟩ := uiLabelSplit_suffix t.data r hu
      have hs : sanitizeCodeText t
          = ⟨(r.reverse.dropWhile (fun c => c = '\n')).reverse⟩ := by
        simp only [sanitizeCodeText, hu]
      refine ⟨p, (r.reverse.takeWhile (fun c => c = '\n')).reverse, ?_, ?_, ?_,
        Or.inl (by simp [hu])⟩
      · rw [hs, hp, List.append_assoc]
        congr 1
        simpa using rev_split_trailing (fun c => decide (c = '\n')) r
      · rw [List.all_eq_true]
        intro c hc
        rw [List.mem_reverse] at hc
        exact mem_takeWhile_sat _ _ _ hc
      · rw [hs]
        exact dropTrail_getLast_ne _ _ _ (by decide)
  · have h1 : scanRun (phStep mathTagChars []) (phTok codeTagChars 0)
        = phTok codeTagChars 0 := by
      have h := phRun_math_over_ctok [] 0 [] rfl rfl
      rwa [List.append_nil, scanRun_nil, List.append_nil] at h
    have h2 : scanRun (phStep codeTagChars ["```\n" ++ sanitizeCodeText t ++ "\n```"])
        (phTok codeTagChars 0)
        = ((["```\n" ++ sanitizeCodeText t ++ "\n```"] : List String).getD 0 "").data := by
      have h := phRun_consume codeTagChars ["```\n" ++ sanitizeCodeText t ++ "\n```"] 0 []
      rwa [List.append_nil, scanRun_nil, List.append_nil] at h
    have hreg : (createCodePlaceholder [] t "").1
        = ["```\n" ++ sanitizeCodeText t ++ "\n```"] := rfl
    simp only [restoreMathPlaceholders, restoreCodePlaceholders, hreg]
    rw [h1, h2]
    rfl

/-- Claim C8 (counterexample to the original statement), two parts.
For the code body `"x\n \n"`, whose final blank line consists of a
space, removing the trailing blank lines would give `"x"`, but the
sanitizer removes only trailing newline characters and emits `"x\n "`
— the trailing blank line survives without its newline.  And the FINAL
Markdown does not preserve the fenced interior byte-for-byte: the
postprocessing pipeline deletes the interior blank line of the fenced
body `"x\n\n- a"`. -/
theorem c8_trailing_blank_counterexample :
    (sanitizeCodeText "x\n \n" = "x\n " ∧
      removeTrailingBlankLines "x\n \n" = "x" ∧
      ("x\n " : String) ≠ "x") ∧
    postChain "```\nx\n\n- a\n```" = "```\nx\n- a\n```" :=
  ⟨⟨by decide, by decide, by decide⟩, by decide⟩

/-! ### Line splitting and joining -/

theorem splitNl_no_nl (l : List Char) (h : ∀ c ∈ l, c ≠ '\n') : splitNl l = [l] := by
  induction l with
  | nil => rfl
  | cons c rest ih =>
    simp [splitNl, h c (by simp), ih (fun x hx => h x (by simp [hx]))]

theorem splitNl_append (l t : List Char) (h : ∀ c ∈ l, c ≠ '\n') :
    splitNl (l ++ '\n' :: t) = l :: splitNl t := by
  induction l with
  | nil => simp [splitNl]
  | cons c rest ih =>
    rw [List.cons_append]
    simp [splitNl, h c (by simp), ih (fun x hx => h x (by simp [hx]))]

theorem splitNl_ne_nil (l : List Char) : splitNl l ≠ [] := by
  induction l with
  | nil => simp [splitNl]
  | cons c rest ih =>
    by_cases hc : c = '\n'
    · simp [splitNl, hc]
    · cases hr : splitNl rest with
      | nil => exact absurd hr ih
      | cons a b => simp [splitNl, hc, hr]

theorem splitNl_joinNl (ls : List (List Char)) (hne : ls ≠ [])
    (h : ∀ l ∈ ls, ∀ c ∈ l, c ≠ '\n') : splitNl (joinNl ls) = ls := by
  induction ls with
  | nil => exact absurd rfl hne
  | cons l rest ih =>
    cases rest with
    | nil =>
      rw [show joinNl [l] = l from rfl]
      exact splitNl_no_nl l (h l (by simp))
    | cons l2 rest2 =>
      rw [show joinNl (l :: l2 :: rest2) = l ++ '\n' :: joinNl (l2 :: rest2) from rfl]
      rw [splitNl_append l _ (h l (by simp))]
      rw [ih (by simp) (fun x hx => h x (by simp [hx]))]

theorem splitNl_mem_chars (l : List Char) :
    ∀ l' ∈ splitNl l, ∀ c ∈ l', c ∈ l := by
  induction l with
  | nil =>
    intro l' hl'
    simp only [splitNl, List.mem_singleton] at hl'
    subst hl'
    simp
  | cons a rest ih =>
    intro l' hl' c hc
    by_cases ha : a = '\n'
    · rw [show splitNl (a :: rest) = [] :: splitNl rest from by simp [splitNl, ha]] at hl'
      rw [List.mem_cons] at hl'
      cases hl' with
      | inl h0 => subst h0; simp at hc
      | inr h0 => exact List.mem_cons_of_mem a (ih l' h0 c hc)
    · cases hr : splitNl rest with
      | nil => exact absurd hr (splitNl_ne_nil rest)
      | cons b bs =>
        rw [show splitNl (a :: rest) = (a :: b) :: bs from by simp [splitNl, ha, hr]] at hl'
        rw [List.mem_cons] at hl'
        cases hl' with
        | inl h0 =>
          subst h0
          rw [List.mem_cons] at hc
          cases hc with
          | inl h1 => simp [h1]
          | inr h1 =>
            exact List.mem_cons_of_mem a (ih b (by rw [hr]; simp) c h1)
        | inr h0 =>
          exact List.mem_cons_of_mem a (ih l' (by rw [hr]; simp [h0]) c hc)

theorem splitNl_mem_no_nl (l : List Char) :
    ∀ l' ∈ splitNl l, ∀ c ∈ l', c ≠ '\n' := by
  induction l with
  | nil =>
    intro l' hl'
    simp only [splitNl, List.mem_singleton] at hl'
    subst hl'
    simp
  | cons a rest ih =>
    intro l' hl' c hc
    by_cases ha : a = '\n'
    · rw [show splitNl (a :: rest) = [] :: splitNl rest from by simp [splitNl, ha]] at hl'
      rw [List.mem_cons] at hl'
      cases hl' with
      | inl h0 => subst h0; simp at hc
      | inr h0 => exact ih l' h0 c hc
    · cases hr : splitNl rest with
      | nil => exact absurd hr (splitNl_ne_nil rest)
      | cons b bs =>
        rw [show splitNl (a :: rest) = (a :: b) :: bs from by simp [splitNl, ha, hr]] at hl'
        rw [List.mem_cons] at hl'
        cases hl' with
        | inl h0 =>
          subst h0
          rw [List.mem_cons] at hc
          cases hc with
          | inl h1 => subst h1; exact ha
          | inr h1 => exact ih b (by rw [hr]; simp) c h1
        | inr h0 => exact ih l' (by rw [hr]; simp [h0]) c hc

theorem joinNl_mem (ls : List (List Char)) :
    ∀ c ∈ joinNl ls, c = '\n' ∨ ∃ l ∈ ls, c ∈ l := by
  induction ls with
  | nil => simp [joinNl]
  | cons l rest ih =>
    intro c hc
    cases rest with
    | nil =>
      rw [show joinNl [l] = l from rfl] at hc
      exact Or.inr ⟨l, by simp, hc⟩
    | cons l2 rest2 =>
      rw [show joinNl (l :: l2 :: rest2) = l ++ '\n' :: joinNl (l2 :: rest2) from rfl] at hc
      rw [List.mem_append] at hc
      cases hc with
      | inl h0 => exact Or.inr ⟨l, by simp, h0⟩
      | inr h0 =>
        rw [List.mem_cons] at h0
        cases h0 with
        | inl h1 => exact Or.inl h1
        | inr h1 =>
          cases ih c h1 with
          | inl h2 => exact Or.inl h2
          | inr h2 =>
            obtain ⟨u, hu, hcu⟩ := h2
            exact Or.inr ⟨u, by simp [hu], hcu⟩

theorem crlfFix_id (l : List Char) (h : ∀ c ∈ l, c ≠ '\r') : crlfFix l = l := by
  induction l with
  | nil => rfl
  | cons c rest ih =>
    have hc : c ≠ '\r' := h c (by simp)
    have hr := ih (fun x hx => h x (by simp [hx]))
    rw [show crlfFix (c :: rest) = c :: crlfFix rest from by
      conv_lhs => rw [crlfFix.eq_def]
      dsimp only
      rw [if_neg hc]]
    rw [hr]

/-! ### Adjacent display-math tightening (claim C6) -/

theorem tadmGo_cons_not_disp (l : List Char) (ls : List (List Char))
    (h : dispLineTest l = false) : tadmGo (l :: ls) = l :: tadmGo ls := by
  match ls with
  | [] => rfl
  | [a] => rfl
  | a :: b :: rest => simp [tadmGo, h]

theorem tadmGo_disp_next_nonblank (l a : List Char) (ls : List (List Char))
    (ha : blankLineTest a = false) : tadmGo (l :: a :: ls) = l :: tadmGo (a :: ls) := by
  cases ls with
  | nil => rfl
  | cons b rest => simp [tadmGo, ha]

theorem tadmGo_skip (l a b : List Char) (rest : List (List Char))
    (hl : dispLineTest l = true) (ha : blankLineTest a = true)
    (hb : dispLineTest b = true) :
    tadmGo (l :: a :: b :: rest) = l :: tadmGo (b :: rest) := by
  simp [tadmGo, hl, ha, hb]

theorem tadmGo_chunk (pre rest : List (List Char))
    (h : ∀ l ∈ pre, dispLineTest l = false) :
    tadmGo (pre ++ rest) = pre ++ tadmGo rest := by
  induction pre with
  | nil => rfl
  | cons l pre ih =>
    rw [List.cons_append, tadmGo_cons_not_disp l _ (h l (by simp)),
      ih (fun x hx => h x (by simp [hx])), List.cons_append]

/-- Claim C6 (amended): when two `$$`-delimited display blocks are
separated by exactly one blank line, the transform removes only the
blank line, leaving the closing and opening `$$` delimiter lines
adjacent; the delimiter pair itself is not removed and no merged
single block is produced. -/
theorem noNl_map_data (ls : List String)
    (h : ∀ l ∈ ls, ∀ c ∈ l.data, c ≠ '\n') :
    ∀ l' ∈ ls.map String.data, ∀ c ∈ l', c ≠ '\n' := by
  intro l' hl'
  rw [List.mem_map] at hl'
  obtain ⟨a, ha, rfl⟩ := hl'
  exact h a ha

theorem c6_tighten_amended (A B : List String) (hA : A ≠ []) (hB : B ≠ [])
    (hAl : ∀ l ∈ A, dispLineTest l.data = false ∧ blankLineTest l.data = false ∧
      (∀ c ∈ l.data, c ≠ '\n'))
    (hBl : ∀ l ∈ B, dispLineTest l.data = false ∧ blankLineTest l.data = false ∧
      (∀ c ∈ l.data, c ≠ '\n')) :
    tightenAdjacentDisplayMathBlocks
        (mkLines (("$$" :: A) ++ ["$$", ""] ++ ("$$" :: B) ++ ["$$"]))
      = mkLines (("$$" :: A) ++ ["$$", "$$"] ++ B ++ ["$$"]) := by
  obtain ⟨A0, A', rfl⟩ : ∃ A0 A', A = A0 :: A' := by
    cases A with
    | nil => exact absurd rfl hA
    | cons a as => exact ⟨a, as, rfl⟩
  obtain ⟨B0, B', rfl⟩ : ∃ B0 B', B = B0 :: B' := by
    cases B with
    | nil => exact absurd rfl hB
    | cons b bs => exact ⟨b, bs, rfl⟩
  have hAok : ∀ l ∈ (A0 :: A'), ∀ c ∈ String.data l, c ≠ '\n' :=
    fun m hm => (hAl m hm).2.2
  have hBok : ∀ l ∈ (B0 :: B'), ∀ c ∈ String.data l, c ≠ '\n' :=
    fun m hm => (hBl m hm).2.2
  have hALL : ∀ l ∈ (("$$" :: A0 :: A') ++ ["$$", ""] ++ ("$$" :: B0 :: B') ++ ["$$"]),
      ∀ c ∈ String.data l, c ≠ '\n' := by
    intro l hl
    rcases List.mem_append.mp hl with h1 | h1
    · rcases List.mem_append.mp h1 with h2 | h2
      · rcases List.mem_append.mp h2 with h3 | h3
        · rcases List.mem_cons.mp h3 with rfl | h4
          · decide
          · exact hAok l h4
        · rcases List.mem_cons.mp h3 with rfl | h4
          · decide
          · rw [List.mem_singleton] at h4
            subst h4
            decide
      · rcases List.mem_cons.mp h2 with rfl | h3
        · decide
        · exact hBok l h3
    · rw [List.mem_singleton] at h1
      subst h1
      decide
  have hsplit : splitNl (joinNl ((("$$" :: A0 :: A') ++ ["$$", ""] ++
      ("$$" :: B0 :: B') ++ ["$$"]).map String.data))
      = (("$$" :: A0 :: A') ++ ["$$", ""] ++ ("$$" :: B0 :: B') ++ ["$$"]).map String.data := by
    apply splitNl_joinNl
    · simp
    · exact noNl_map_data _ hALL
  simp only [tightenAdjacentDisplayMathBlocks, mkLines]
  rw [hsplit]
  have hAd : ∀ l ∈ (A0.data :: A'.map String.data), dispLineTest l = false := by
    intro l hl
    rcases List.mem_cons.mp hl with rfl | h2
    · exact (hAl A0 (by simp)).1
    · rw [List.mem_map] at h2
      obtain ⟨a, ha, rfl⟩ := h2
      exact (hAl a (by simp [ha])).1
  have hBd : ∀ l ∈ (B0.data :: B'.map String.data), dispLineTest l = false := by
    intro l hl
    rcases List.mem_cons.mp hl with rfl | h2
    · exact (hBl B0 (by simp)).1
    · rw [List.mem_map] at h2
      obtain ⟨b, hb, rfl⟩ := h2
      exact (hBl b (by simp [hb])).1
  have hmach : tadmGo ((("$$" :: A0 :: A') ++ ["$$", ""] ++ ("$$" :: B0 :: B') ++
      ["$$"]).map String.data)
      = (("$$" :: A0 :: A') ++ ["$$", "$$"] ++ (B0 :: B') ++ ["$$"]).map String.data := by
    simp only [List.map_append, List.map_cons, List.map_nil, List.cons_append,
      List.nil_append, List.append_assoc]
    rw [tadmGo_disp_next_nonblank _ _ _ (hAl A0 (by simp)).2.1]
    rw [← List.cons_append A0.data]
    rw [tadmGo_chunk _ _ hAd]
    rw [tadmGo_skip _ _ _ _ (by decide) (by decide) (by decide)]
    rw [tadmGo_disp_next_nonblank _ _ _ (hBl B0 (by simp)).2.1]
    rw [← List.cons_append B0.data]
    rw [tadmGo_chunk _ _ hBd]
    simp [tadmGo]
  rw [hmach]

/-- Claim C6 (counterexample to the original statement): for two
display blocks separated by a single blank line, the transform removes
only the blank line; the closing/opening delimiter pair remains, so no
single merged block is produced. -/
theorem c6_merge_counterexample :
    tightenAdjacentDisplayMathBlocks "$$\na\n$$\n\n$$\nb\n$$" = "$$\na\n$$\n$$\nb\n$$" ∧
      ("$$\na\n$$\n$$\nb\n$$" : String) ≠ "$$\na\nb\n$$" := ⟨by decide, by decide⟩

/-- Claim C6 (witness for the amended theorem). -/
theorem c6_tighten_witness :
    tightenAdjacentDisplayMathBlocks
        (mkLines (("$$" :: ["a"]) ++ ["$$", ""] ++ ("$$" :: ["b"]) ++ ["$$"]))
      = mkLines (("$$" :: ["a"]) ++ ["$$", "$$"] ++ ["b"] ++ ["$$"]) := by
  apply c6_tighten_amended
  · simp
  · simp
  · intro l hl
    simp only [List.mem_singleton] at hl
    subst hl
    exact ⟨by decide, by decide, by decide⟩
  · intro l hl
    simp only [List.mem_singleton] at hl
    subst hl
    exact ⟨by decide, by decide, by decide⟩

/-! ### Blank-line normalization and the postprocessing sequence (claim C5) -/

theorem nblGo_inFence (maxB : Nat) (f1 : List Char) (hf1 : fenceLineTest f1 = true) :
    ∀ (body : List (List Char)), (∀ l ∈ body, fenceLineTest l = false) →
    ∀ (d : Bool) (k : Nat) (rest : List (List Char)),
    ∃ d', nblGo maxB true d k (body ++ f1 :: rest)
      = body ++ f1 :: nblGo maxB false d' 0 rest := by
  intro body
  induction body with
  | nil =>
    intro _ d k rest
    refine ⟨d, ?_⟩
    simp [nblGo, hf1]
  | cons l bs ih =>
    intro hb d k rest
    have hl : fenceLineTest l = false := hb l (by simp)
    have hbs : ∀ x ∈ bs, fenceLineTest x = false := fun x hx => hb x (by simp [hx])
    by_cases hd : dispLineTest l = true
    · obtain ⟨d', hrec⟩ := ih hbs (!d) 0 rest
      refine ⟨d', ?_⟩
      rw [List.cons_append]
      rw [show nblGo maxB true d k (l :: (bs ++ f1 :: rest))
          = l :: nblGo maxB true (!d) 0 (bs ++ f1 :: rest) from by simp [nblGo, hl, hd]]
      rw [hrec]
      simp
    · rw [Bool.not_eq_true] at hd
      obtain ⟨d', hrec⟩ := ih hbs d 0 rest
      refine ⟨d', ?_⟩
      rw [List.cons_append]
      rw [show nblGo maxB true d k (l :: (bs ++ f1 :: rest))
          = l :: nblGo maxB true d 0 (bs ++ f1 :: rest) from by simp [nblGo, hl, hd]]
      rw [hrec]
      simp

theorem nblGo_blank_run (maxB : Nat) (b : List Char)
    (hb1 : fenceLineTest b = false) (hb2 : dispLineTest b = false)
    (hb3 : tableLineTest b = false) (hb4 : blankLineTest b = false) :
    ∀ (n k : Nat) (rest : List (List Char)),
    nblGo maxB false false k (List.replicate n [] ++ b :: rest)
      = List.replicate (min n (maxB - k)) [] ++ b :: nblGo maxB false false 0 rest := by
  intro n
  induction n with
  | zero =>
    intro k rest
    simp [nblGo, hb1, hb2, hb3, hb4]
  | succ n ih =>
    intro k rest
    have e1 : fenceLineTest ([] : List Char) = false := by decide
    have e2 : dispLineTest ([] : List Char) = false := by decide
    have e3 : tableLineTest ([] : List Char) = false := by decide
    have e4 : blankLineTest ([] : List Char) = true := by decide
    rw [List.replicate_succ, List.cons_append]
    rw [show nblGo maxB false false k ([] :: (List.replicate n [] ++ b :: rest))
        = (if k + 1 ≤ maxB then [([] : List Char)] else []) ++
          nblGo maxB false false (k + 1) (List.replicate n [] ++ b :: rest) from by
      simp [nblGo, e1, e2, e3, e4]]
    rw [ih (k + 1) rest]
    by_cases hk : k + 1 ≤ maxB
    · rw [if_pos hk]
      rw [show min (n + 1) (maxB - k) = min n (maxB - (k + 1)) + 1 from by omega]
      rw [List.replicate_succ]
      simp
    · rw [if_neg hk]
      rw [show min n (maxB - (k + 1)) = 0 from by omega]
      rw [show min (n + 1) (maxB - k) = 0 from by omega]
      simp

theorem nbl_lines (maxB : Nat) (ls : List String) (hne : ls ≠ [])
    (h : ∀ l ∈ ls, ∀ c ∈ l.data, c ≠ '\n' ∧ c ≠ '\r') :
    normalizeBlanklinesBlockSafe (mkLines ls) maxB
      = ⟨joinNl (nblGo maxB false false 0 (ls.map String.data))⟩ := by
  have hnr : ∀ c ∈ joinNl (ls.map String.data), c ≠ '\r' := by
    intro c hc
    rcases joinNl_mem _ c hc with rfl | ⟨l, hl, hcl⟩
    · decide
    · rw [List.mem_map] at hl
      obtain ⟨s, hs, rfl⟩ := hl
      exact (h s hs c hcl).2
  have hnn : ∀ l ∈ ls.map String.data, ∀ c ∈ l, c ≠ '\n' := by
    intro l hl c hc
    rw [List.mem_map] at hl
    obtain ⟨s, hs, rfl⟩ := hl
    exact (h s hs c hc).1
  have hmapne : ls.map String.data ≠ [] := by
    cases ls with
    | nil => exact absurd rfl hne
    | cons a as => simp
  simp only [normalizeBlanklinesBlockSafe, mkLines]
  rw [crlfFix_id _ hnr, splitNl_joinNl _ hmapne hnn]

/-- Claim C5 (amended): blank-line normalization itself honours the
protected regions — a fenced block bounded by fence-test lines passes
through `normalizeBlanklinesBlockSafe` verbatim, and outside protected
regions a run of `n` blank lines between two ordinary text lines is
collapsed to `min n maxB` blank lines.  The original claim's further
assertion that no transform of the postprocessing sequence alters
protected lines is refuted separately: `collapseListSpacing` deletes
blank lines inside fenced blocks. -/
theorem c5_blanksafe_amended (maxB : Nat) (F0 F1 a b : String)
    (body rest : List String) (n : Nat)
    (hA : ∀ l ∈ F0 :: (body ++ F1 :: rest), ∀ c ∈ l.data, c ≠ '\n' ∧ c ≠ '\r')
    (hf0 : fenceLineTest F0.data = true) (hf1 : fenceLineTest F1.data = true)
    (hbody : ∀ l ∈ body, fenceLineTest l.data = false)
    (hab : ∀ l ∈ [a, b], ∀ c ∈ l.data, c ≠ '\n' ∧ c ≠ '\r')
    (ha1 : fenceLineTest a.data = false) (ha2 : dispLineTest a.data = false)
    (ha3 : tableLineTest a.data = false) (ha4 : blankLineTest a.data = false)
    (hb1 : fenceLineTest b.data = false) (hb2 : dispLineTest b.data = false)
    (hb3 : tableLineTest b.data = false) (hb4 : blankLineTest b.data = false) :
    (∃ d', normalizeBlanklinesBlockSafe (mkLines (F0 :: (body ++ F1 :: rest))) maxB
        = ⟨joinNl (F0.data :: (body.map String.data ++
            F1.data :: nblGo maxB false d' 0 (rest.map String.data)))⟩) ∧
    normalizeBlanklinesBlockSafe (mkLines (a :: (List.replicate n "" ++ [b]))) maxB
      = mkLines (a :: (List.replicate (min n maxB) "" ++ [b])) := by
  constructor
  · obtain ⟨d', hd'⟩ := nblGo_inFence maxB F1.data hf1 (body.map String.data)
      (by
        intro l hl
        rw [List.mem_map] at hl
        obtain ⟨s, hs, rfl⟩ := hl
        exact hbody s hs)
      false 0 (rest.map String.data)
    refine ⟨d', ?_⟩
    rw [nbl_lines maxB _ (by simp) hA]
    simp only [List.map_cons, List.map_append]
    rw [show nblGo maxB false false 0
        (F0.data :: (body.map String.data ++ F1.data :: rest.map String.data))
        = F0.data :: nblGo maxB true false 0
            (body.map String.data ++ F1.data :: rest.map String.data) from by
      simp [nblGo, hf0]]
    rw [hd']
  · have hlines : ∀ l ∈ a :: (List.replicate n "" ++ [b]), ∀ c ∈ l.data,
        c ≠ '\n' ∧ c ≠ '\r' := by
      intro l hl
      rcases List.mem_cons.mp hl with rfl | h0
      · exact hab _ (by simp)
      · rcases List.mem_append.mp h0 with h1 | h1
        · have h2 := List.eq_of_mem_replicate h1
          subst h2
          intro c hc
          rw [show ("" : String).data = [] from rfl] at hc
          simp at hc
        · rw [List.mem_singleton] at h1
          subst h1
          exact hab _ (by simp)
    have hmach : nblGo maxB false false 0 (a.data :: (List.replicate n [] ++ [b.data]))
        = a.data :: (List.replicate (min n maxB) [] ++ [b.data]) := by
      rw [show nblGo maxB false false 0 (a.data :: (List.replicate n [] ++ [b.data]))
          = a.data :: nblGo maxB false false 0 (List.replicate n [] ++ b.data :: []) from by
        simp [nblGo, ha1, ha2, ha3, ha4]]
      rw [nblGo_blank_run maxB b.data hb1 hb2 hb3 hb4 n 0 []]
      simp [nblGo]
    have hmap1 : (a :: (List.replicate n "" ++ [b])).map String.data
        = a.data :: (List.replicate n [] ++ [b.data]) := by
      simp only [List.map_cons, List.map_append, List.map_replicate, List.map_nil]
    have hmap2 : (a :: (List.replicate (min n maxB) "" ++ [b])).map String.data
        = a.data :: (List.replicate (min n maxB) [] ++ [b.data]) := by
      simp only [List.map_cons, List.map_append, List.map_replicate, List.map_nil]
    rw [nbl_lines maxB _ (by simp) hlines]
    rw [hmap1, hmach]
    simp only [mkLines]
    rw [hmap2]

/-- Claim C5 (counterexample to the original statement): the first
transform leaves the fenced block intact, but `collapseListSpacing` —
part of the same postprocessing sequence — deletes the blank line
inside the fenced code block because its regex is applied blindly to
the whole text. -/
theorem c5_protected_counterexample :
    normalizeBlanklinesBlockSafe (mkLines ["```", "x", "", "- a", "```"]) 1
      = mkLines ["```", "x", "", "- a", "```"] ∧
    collapseListSpacing (mkLines ["```", "x", "", "- a", "```"])
      = mkLines ["```", "x", "- a", "```"] := ⟨by decide, by decide⟩

/-- Claim C5 (witness for the amended theorem). -/
theorem c5_blanksafe_witness :
    (∃ d', normalizeBlanklinesBlockSafe
          (mkLines (("```" : String) :: (["x", ""] ++ "```" :: ["t"]))) 1
        = ⟨joinNl (("```" : String).data :: ((["x", ""] : List String).map String.data ++
            ("```" : String).data :: nblGo 1 false d' 0
              ((["t"] : List String).map String.data)))⟩) ∧
    normalizeBlanklinesBlockSafe
        (mkLines (("p" : String) :: (List.replicate 3 "" ++ ["q"]))) 1
      = mkLines (("p" : String) :: (List.replicate (min 3 1) "" ++ ["q"])) :=
  c5_blanksafe_amended 1 "```" "```" "p" "q" ["x", ""] ["t"] 3
    (by decide) (by decide) (by decide)
    (by
      intro l hl
      rcases List.mem_cons.mp hl with rfl | h0
      · decide
      · rw [List.mem_singleton] at h0
        subst h0
        decide)
    (by decide) (by decide) (by decide) (by decide) (by decide)
    (by decide) (by decide) (by decide) (by decide)

/-! ### Idempotence of postprocessing (claim C7) -/

theorem nblGo_counter_ge (maxB : Nat) :
    ∀ (ls : List (List Char)) (f d : Bool) (k1 k2 : Nat),
    maxB ≤ k1 → maxB ≤ k2 → nblGo maxB f d k1 ls = nblGo maxB f d k2 ls := by
  intro ls
  induction ls with
  | nil => intro f d k1 k2 _ _; rfl
  | cons l rest ih =>
    intro f d k1 k2 h1 h2
    by_cases c1 : fenceLineTest l = true
    · simp [nblGo, c1]
    · rw [Bool.not_eq_true] at c1
      by_cases c2 : dispLineTest l = true
      · simp [nblGo, c1, c2]
      · rw [Bool.not_eq_true] at c2
        by_cases c3 : (f || d || tableLineTest l) = true
        · simp [nblGo, c1, c2, c3]
        · rw [Bool.not_eq_true] at c3
          by_cases c4 : blankLineTest l = true
          · have e1 : ¬ (k1 + 1 ≤ maxB) := by omega
            have e2 : ¬ (k2 + 1 ≤ maxB) := by omega
            rw [show nblGo maxB f d k1 (l :: rest) = nblGo maxB f d (k1 + 1) rest from by
              simp [nblGo, c1, c2, c3, c4, e1]]
            rw [show nblGo maxB f d k2 (l :: rest) = nblGo maxB f d (k2 + 1) rest from by
              simp [nblGo, c1, c2, c3, c4, e2]]
            exact ih f d (k1 + 1) (k2 + 1) (by omega) (by omega)
          · rw [Bool.not_eq_true] at c4
            simp [nblGo, c1, c2, c3, c4]

theorem nblGo_idem (maxB : Nat) :
    ∀ (ls : List (List Char)) (f d : Bool) (k : Nat), k ≤ maxB →
    nblGo maxB f d k (nblGo maxB f d k ls) = nblGo maxB f d k ls := by
  intro ls
  induction ls with
  | nil => intro f d k _; rfl
  | cons l rest ih =>
    intro f d k hk
    by_cases c1 : fenceLineTest l = true
    · rw [show nblGo maxB f d k (l :: rest) = l :: nblGo maxB (!f) d 0 rest from by
        simp [nblGo, c1]]
      rw [show nblGo maxB f d k (l :: nblGo maxB (!f) d 0 rest)
          = l :: nblGo maxB (!f) d 0 (nblGo maxB (!f) d 0 rest) from by
        simp [nblGo, c1]]
      rw [ih (!f) d 0 (Nat.zero_le _)]
    · rw [Bool.not_eq_true] at c1
      by_cases c2 : dispLineTest l = true
      · rw [show nblGo maxB f d k (l :: rest) = l :: nblGo maxB f (!d) 0 rest from by
          simp [nblGo, c1, c2]]
        rw [show nblGo maxB f d k (l :: nblGo maxB f (!d) 0 rest)
            = l :: nblGo maxB f (!d) 0 (nblGo maxB f (!d) 0 rest) from by
          simp [nblGo, c1, c2]]
        rw [ih f (!d) 0 (Nat.zero_le _)]
      · rw [Bool.not_eq_true] at c2
        by_cases c3 : (f || d || tableLineTest l) = true
        · rw [show nblGo maxB f d k (l :: rest) = l :: nblGo maxB f d 0 rest from by
            simp [nblGo, c1, c2, c3]]
          rw [show nblGo maxB f d k (l :: nblGo maxB f d 0 rest)
              = l :: nblGo maxB f d 0 (nblGo maxB f d 0 rest) from by
            simp [nblGo, c1, c2, c3]]
          rw [ih f d 0 (Nat.zero_le _)]
        · rw [Bool.not_eq_true] at c3
          have hfd : f = false ∧ d = false ∧ tableLineTest l = false := by
            cases f
            · cases d
              · simpa using c3
              · simp at c3
            · simp at c3
          obtain ⟨hf, hd, htab⟩ := hfd
          subst hf
          subst hd
          by_cases c4 : blankLineTest l = true
          · have e1 : fenceLineTest ([] : List Char) = false := by decide
            have e2 : dispLineTest ([] : List Char) = false := by decide
            have e3 : tableLineTest ([] : List Char) = false := by decide
            have e4 : blankLineTest ([] : List Char) = true := by decide
            by_cases hk1 : k + 1 ≤ maxB
            · rw [show nblGo maxB false false k (l :: rest)
                  = [] :: nblGo maxB false false (k + 1) rest from by
                simp [nblGo, c1, c2, c4, htab, hk1]]
              rw [show nblGo maxB false false k
                    ([] :: nblGo maxB false false (k + 1) rest)
                  = [] :: nblGo maxB false false (k + 1)
                      (nblGo maxB false false (k + 1) rest) from by
                simp [nblGo, e1, e2, e3, e4, hk1]]
              rw [ih false false (k + 1) hk1]
            · rw [show nblGo maxB false false k (l :: rest)
                  = nblGo maxB false false (k + 1) rest from by
                simp [nblGo, c1, c2, c4, htab, hk1]]
              rw [nblGo_counter_ge maxB rest false false (k + 1) k (by omega) (by omega)]
              exact ih false false k hk
          · rw [Bool.not_eq_true] at c4
            rw [show nblGo maxB false false k (l :: rest)
                = l :: nblGo maxB false false 0 rest from by
              simp [nblGo, c1, c2, c4, htab]]
            rw [show nblGo maxB false false k (l :: nblGo maxB false false 0 rest)
                = l :: nblGo maxB false false 0 (nblGo maxB false false 0 rest) from by
              simp [nblGo, c1, c2, c4, htab]]
            rw [ih false false 0 (Nat.zero_le _)]

theorem nblGo_mem (maxB : Nat) :
    ∀ (ls : List (List Char)) (f d : Bool) (k : Nat),
    ∀ l' ∈ nblGo maxB f d k ls, l' ∈ ls ∨ l' = [] := by
  intro ls
  induction ls with
  | nil =>
    intro f d k l' h
    simp [nblGo] at h
  | cons l rest ih =>
    intro f d k l' h
    by_cases c1 : fenceLineTest l = true
    · rw [show nblGo maxB f d k (l :: rest) = l :: nblGo maxB (!f) d 0 rest from by
        simp [nblGo, c1]] at h
      rcases List.mem_cons.mp h with rfl | h0
      · exact Or.inl (by simp)
      · rcases ih (!f) d 0 l' h0 with h1 | h1
        · exact Or.inl (by simp [h1])
        · exact Or.inr h1
    · rw [Bool.not_eq_true] at c1
      by_cases c2 : dispLineTest l = true
      · rw [show nblGo maxB f d k (l :: rest) = l :: nblGo maxB f (!d) 0 rest from by
          simp [nblGo, c1, c2]] at h
        rcases List.mem_cons.mp h with rfl | h0
        · exact Or.inl (by simp)
        · rcases ih f (!d) 0 l' h0 with h1 | h1
          · exact Or.inl (by simp [h1])
          · exact Or.inr h1
      · rw [Bool.not_eq_true] at c2
        by_cases c3 : (f || d || tableLineTest l) = true
        · rw [show nblGo maxB f d k (l :: rest) = l :: nblGo maxB f d 0 rest from by
            simp [nblGo, c1, c2, c3]] at h
          rcases List.mem_cons.mp h with rfl | h0
          · exact Or.inl (by simp)
          · rcases ih f d 0 l' h0 with h1 | h1
            · exact Or.inl (by simp [h1])
            · exact Or.inr h1
        · rw [Bool.not_eq_true] at c3
          by_cases c4 : blankLineTest l = true
          · rw [show nblGo maxB f d k (l :: rest)
                = (if k + 1 ≤ maxB then [([] : List Char)] else []) ++
                  nblGo maxB f d (k + 1) rest from by
              simp [nblGo, c1, c2, c3, c4]] at h
            rcases List.mem_append.mp h with h0 | h0
            · by_cases hk1 : k + 1 ≤ maxB
              · rw [if_pos hk1, List.mem_singleton] at h0
                exact Or.inr h0
              · rw [if_neg hk1] at h0
                simp at h0
            · rcases ih f d (k + 1) l' h0 with h1 | h1
              · exact Or.inl (by simp [h1])
              · exact Or.inr h1
          · rw [Bool.not_eq_true] at c4
            rw [show nblGo maxB f d k (l :: rest) = l :: nblGo maxB f d 0 rest from by
              simp [nblGo, c1, c2, c3, c4]] at h
            rcases List.mem_cons.mp h with rfl | h0
            · exact Or.inl (by simp)
            · rcases ih f d 0 l' h0 with h1 | h1
              · exact Or.inl (by simp [h1])
              · exact Or.inr h1

theorem nblGo_ne_nil (maxB : Nat) (hm : 1 ≤ maxB) (l : List Char)
    (ls : List (List Char)) (f d : Bool) : nblGo maxB f d 0 (l :: ls) ≠ [] := by
  by_cases c1 : fenceLineTest l = true
  · simp [nblGo, c1]
  · rw [Bool.not_eq_true] at c1
    by_cases c2 : dispLineTest l = true
    · simp [nblGo, c1, c2]
    · rw [Bool.not_eq_true] at c2
      by_cases c3 : (f || d || tableLineTest l) = true
      · simp [nblGo, c1, c2, c3]
      · rw [Bool.not_eq_true] at c3
        by_cases c4 : blankLineTest l = true
        · have hk : 0 + 1 ≤ maxB := by omega
          simp [nblGo, c1, c2, c3, c4, hk]
        · rw [Bool.not_eq_true] at c4
          simp [nblGo, c1, c2, c3, c4]

/-- Claim C7 (amended): the first stage of the postprocessing pipeline,
blank-line normalization, is idempotent on carriage-return-free input
when the configured blank maximum is at least one.  The full composed
pipeline of the original claim is not idempotent (see the
counterexample): the fence-padding pass corrupts `$$` delimiters via the
JavaScript `$$` replacement-string escape, and its output can expose new
matches for the blank-line pass. -/
theorem c7_nbl_idem_amended (maxB : Nat) (md : String) (hm : 1 ≤ maxB)
    (hcr : ∀ c ∈ md.data, c ≠ '\r') :
    normalizeBlanklinesBlockSafe (normalizeBlanklinesBlockSafe md maxB) maxB
      = normalizeBlanklinesBlockSafe md maxB := by
  have hfix : crlfFix md.data = md.data := crlfFix_id md.data hcr
  have hO := nblGo_mem maxB (splitNl md.data) false false 0
  have hOnl : ∀ l' ∈ nblGo maxB false false 0 (splitNl md.data), ∀ c ∈ l',
      c ≠ '\n' := by
    intro l' hl' c hc
    rcases hO l' hl' with h1 | h1
    · exact splitNl_mem_no_nl md.data l' h1 c hc
    · subst h1
      simp at hc
  have hOcr : ∀ c ∈ joinNl (nblGo maxB false false 0 (splitNl md.data)),
      c ≠ '\r' := by
    intro c hc
    rcases joinNl_mem _ c hc with rfl | ⟨l', hl', hcl⟩
    · decide
    · rcases hO l' hl' with h1 | h1
      · exact hcr c (splitNl_mem_chars md.data l' h1 c hcl)
      · subst h1
        simp at hcl
  have hOne : nblGo maxB false false 0 (splitNl md.data) ≠ [] := by
    cases hsp : splitNl md.data with
    | nil => exact absurd hsp (splitNl_ne_nil _)
    | cons a as =>
      exact nblGo_ne_nil maxB hm a as false false
  simp only [normalizeBlanklinesBlockSafe]
  rw [hfix]
  rw [crlfFix_id _ hOcr]
  rw [splitNl_joinNl _ hOne hOnl]
  rw [nblGo_idem maxB (splitNl md.data) false false 0 (Nat.zero_le _)]

/-- Claim C7 (counterexample to the original statement): the composed
pipeline applied to its own output differs from the output.  On
`"$$\n\n "` the fence-padding pass replaces the display delimiter by a
single `$` (JavaScript `$$` replacement escape), leaving a trailing
whitespace line that the second round's blank-line pass then removes. -/
theorem c7_idempotence_counterexample :
    postChain (postChain "$$\n\n ") ≠ postChain "$$\n\n " := by decide

/-- Claim C7 (witness for the amended theorem). -/
theorem c7_nbl_idem_witness :
    normalizeBlanklinesBlockSafe (normalizeBlanklinesBlockSafe "a\n\n\nb" 1) 1
      = normalizeBlanklinesBlockSafe "a\n\n\nb" 1 :=
  c7_nbl_idem_amended 1 "a\n\n\nb" (by decide) (by decide)

/-! ### Wiki-TeX normalization (claim C4) -/

theorem dropWhile_id_head (p : Char → Bool) (l : List Char)
    (h : ∀ c ∈ l.take 1, p c = false) : l.dropWhile p = l := by
  cases l with
  | nil => rfl
  | cons a t =>
    have ha : p a = false := h a (by simp)
    simp [List.dropWhile_cons, ha]

theorem jsTrim_id (l : List Char)
    (h1 : ∀ c ∈ l.take 1, jsWs c = false)
    (h2 : ∀ c ∈ l.reverse.take 1, jsWs c = false) : jsTrim l = l := by
  unfold jsTrim jsTrimR jsTrimL
  rw [dropWhile_id_head jsWs l h1]
  rw [dropWhile_id_head jsWs l.reverse h2]
  exact List.reverse_reverse l

theorem trimS_id (s : String)
    (h1 : ∀ c ∈ s.data.take 1, jsWs c = false)
    (h2 : ∀ c ∈ s.data.reverse.take 1, jsWs c = false) : jsTrimS s = s := by
  unfold jsTrimS
  rw [jsTrim_id s.data h1 h2]

theorem take1_reverse_append (x y : List Char) (hy : y ≠ []) :
    (x ++ y).reverse.take 1 = y.reverse.take 1 := by
  rw [List.reverse_append]
  cases hyr : y.reverse with
  | nil => exact absurd (by simpa using congrArg List.reverse hyr) hy
  | cons a t => rfl

theorem strip_noop (s : String) (ht : jsTrimS s = s)
    (hhead : s.data.head? ≠ some '\x7b') :
    stripOuterBalancedBracesOnce s = s := by
  simp only [stripOuterBalancedBracesOnce, ht]
  simp [hhead]

theorem braceScan_mid (mid : List Char)
    (h : ∀ c ∈ mid, c ≠ '\x7b' ∧ c ≠ '\x7d') :
    braceScan (mid ++ ['\x7d']) 1 = true := by
  induction mid with
  | nil => decide
  | cons c m ih =>
    have hc := h c (by simp)
    have hm : ∀ x ∈ m, x ≠ '\x7b' ∧ x ≠ '\x7d' := fun x hx => h x (by simp [hx])
    rw [List.cons_append]
    rw [show braceScan (c :: (m ++ ['\x7d'])) 1 = braceScan (m ++ ['\x7d']) 1 from by
      simp [braceScan, hc.1, hc.2]]
    exact ih hm

theorem braceScan_wrap (mid : List Char)
    (h : ∀ c ∈ mid, c ≠ '\x7b' ∧ c ≠ '\x7d') :
    braceScan ('\x7b' :: (mid ++ ['\x7d'])) 0 = true := by
  rw [show braceScan ('\x7b' :: (mid ++ ['\x7d'])) 0 = braceScan (mid ++ ['\x7d']) 1 from by
    simp [braceScan]]
  exact braceScan_mid mid h

theorem wikiLoop_fix (n : Nat) (s : String) (fd : Bool)
    (hstrip : jsTrimS (stripOuterBalancedBracesOnce s) = s)
    (hd : testDispMacro s.data = false)
    (hbd : testBraceDispMacro s.data = false) :
    wikiLoop (n + 1) s fd = (s, fd) := by
  simp [wikiLoop, hstrip, hd, hbd]

theorem testDispMacro_false_head (c : Char) (t : List Char) (hc : c ≠ '\\') :
    testDispMacro (c :: t) = false := by
  unfold testDispMacro
  rw [show dsMacroChars
      = '\\' :: ['d', 'i', 's', 'p', 'l', 'a', 'y', 's', 't', 'y', 'l', 'e'] from rfl]
  rw [hasPre_false_of_head _ _ _ _ (fun h => hc h.symm)]
  rfl

theorem testTextMacro_false_head (c : Char) (t : List Char) (hc : c ≠ '\\') :
    testTextMacro (c :: t) = false := by
  unfold testTextMacro
  rw [show tsMacroChars = '\\' :: ['t', 'e', 'x', 't', 's', 't', 'y', 'l', 'e'] from rfl]
  rw [hasPre_false_of_head _ _ _ _ (fun h => hc h.symm)]
  rfl

theorem testBraceDispMacro_false_head (c : Char) (t : List Char) (hc : c ≠ '\x7b') :
    testBraceDispMacro (c :: t) = false := by
  rw [testBraceDispMacro.eq_def]
  split
  · next r heq =>
    injection heq with h1 h2
    exact absurd h1 hc
  · rfl

/-- Claim C4: the wiki-TeX normalization strips a leading
`\displaystyle` macro — bare or wrapped in a redundant outer brace
group — returning the force-display flag `true`, and strips a leading
`\textstyle` macro returning the flag `false`.  Stated for any trimmed
nonempty remainder `r` free of braces and backslashes (so the
remainder itself triggers no further rewriting). -/
theorem c4_wikitex_normalization (r : String) (hne : r.data ≠ [])
    (hh : ∀ c ∈ r.data.take 1, jsWs c = false)
    (hl : ∀ c ∈ r.data.reverse.take 1, jsWs c = false)
    (hfree : ∀ c ∈ r.data, c ≠ '\x7b' ∧ c ≠ '\x7d' ∧ c ≠ '\\') :
    normalizeWikiTex ("\\displaystyle " ++ r) = (r, true) ∧
    normalizeWikiTex ("\x7b\\displaystyle " ++ r ++ "\x7d") = (r, true) ∧
    normalizeWikiTex ("\\textstyle " ++ r) = (r, false) := by
  obtain ⟨r0, rt, hr⟩ : ∃ r0 rt, r.data = r0 :: rt := by
    cases hc : r.data with
    | nil => exact absurd hc hne
    | cons a t => exact ⟨a, t, rfl⟩
  have hr0 := hfree r0 (by rw [hr]; simp)
  have hT : jsTrimS r = r := trimS_id r hh hl
  have hD : testDispMacro r.data = false := by
    rw [hr]; exact testDispMacro_false_head r0 rt hr0.2.2
  have hTM : testTextMacro r.data = false := by
    rw [hr]; exact testTextMacro_false_head r0 rt hr0.2.2
  have hBD : testBraceDispMacro r.data = false := by
    rw [hr]; exact testBraceDispMacro_false_head r0 rt hr0.1
  have hSR : stripOuterBalancedBracesOnce r = r := by
    apply strip_noop r hT
    rw [hr]
    intro hx
    simp only [List.head?_cons, Option.some.injEq] at hx
    exact hr0.1 hx
  have hS : jsTrimS (stripOuterBalancedBracesOnce r) = r := by rw [hSR, hT]
  have hWL2 : wikiLoop 2 r true = (r, true) := by
    rw [show (2 : Nat) = 1 + 1 from rfl]
    exact wikiLoop_fix 1 r true hS hD hBD
  -- part 1 and shared loop facts
  have hT1 : jsTrimS ("\\displaystyle " ++ r) = "\\displaystyle " ++ r := by
    apply trimS_id
    · rw [show ("\\displaystyle " ++ r).data.take 1 = ['\\'] from rfl]
      intro c hc
      rw [List.mem_singleton] at hc
      subst hc
      decide
    · rw [show ("\\displaystyle " ++ r).data = (dsMacroChars ++ [' ']) ++ r.data from rfl]
      rw [take1_reverse_append _ _ hne]
      exact hl
  have hne1 : ¬ ("\\displaystyle " ++ r = "") := by
    intro hx
    have h0 := congrArg String.data hx
    rw [show ("\\displaystyle " ++ r).data = dsMacroChars ++ (' ' :: r.data) from rfl] at h0
    rw [show ("" : String).data = [] from rfl] at h0
    simp [dsMacroChars] at h0
  have hSR1 : stripOuterBalancedBracesOnce ("\\displaystyle " ++ r)
      = "\\displaystyle " ++ r := by
    apply strip_noop _ hT1
    rw [show ("\\displaystyle " ++ r).data.head? = some '\\' from rfl]
    intro hx
    exact absurd hx (by decide)
  have e1 : jsTrimS (stripOuterBalancedBracesOnce ("\\displaystyle " ++ r))
      = "\\displaystyle " ++ r := by rw [hSR1, hT1]
  have hdisp1 : testDispMacro ("\\displaystyle " ++ r).data = true := rfl
  have hdrop0 : dropDispMacro ("\\displaystyle " ++ r).data = r.data := by
    rw [show dropDispMacro ("\\displaystyle " ++ r).data
        = List.dropWhile jsWs (' ' :: r.data) from rfl]
    rw [List.dropWhile_cons, if_pos (by decide)]
    exact dropWhile_id_head jsWs r.data hh
  have hdrop1 : jsTrimS ⟨dropDispMacro ("\\displaystyle " ++ r).data⟩ = r := by
    rw [hdrop0]
    rw [show (⟨r.data⟩ : String) = r from rfl]
    exact hT
  have hloop : wikiLoop 3 ("\\displaystyle " ++ r) false = (r, true) := by
    rw [show (3 : Nat) = 2 + 1 from rfl]
    simp only [wikiLoop, e1, hdisp1, if_true]
    rw [hdrop1]
    exact hWL2
  have hmain : ∀ s0 : String, jsTrimS s0 = s0 → ¬ (s0 = "") →
      jsTrimS (stripOuterBalancedBracesOnce s0) = "\\displaystyle " ++ r →
      normalizeWikiTex s0 = (r, true) := by
    intro s0 h1 h2 h3
    simp only [normalizeWikiTex, h1, h3, hloop]
    rw [if_neg h2]
    simp [hTM, hT]
  -- part 2 facts
  have hT2 : jsTrimS ("\x7b\\displaystyle " ++ r ++ "\x7d")
      = "\x7b\\displaystyle " ++ r ++ "\x7d" := by
    apply trimS_id
    · rw [show ("\x7b\\displaystyle " ++ r ++ "\x7d").data.take 1 = ['\x7b'] from rfl]
      intro c hc
      rw [List.mem_singleton] at hc
      subst hc
      decide
    · rw [show ("\x7b\\displaystyle " ++ r ++ "\x7d").data
          = ('\x7b' :: (dsMacroChars ++ (' ' :: r.data))) ++ ['\x7d'] from rfl]
      rw [take1_reverse_append _ _ (by decide)]
      intro c hc
      rw [show (['\x7d'] : List Char).reverse.take 1 = ['\x7d'] from rfl] at hc
      rw [List.mem_singleton] at hc
      subst hc
      decide
  have hne2 : ¬ ("\x7b\\displaystyle " ++ r ++ "\x7d" = "") := by
    intro hx
    have h0 := congrArg String.data hx
    rw [show ("\x7b\\displaystyle " ++ r ++ "\x7d").data
        = '\x7b' :: (dsMacroChars ++ (' ' :: (r.data ++ ['\x7d']))) from rfl] at h0
    rw [show ("" : String).data = [] from rfl] at h0
    simp at h0
  have hbs2 : braceScan ("\x7b\\displaystyle " ++ r ++ "\x7d").data 0 = true := by
    rw [show ("\x7b\\displaystyle " ++ r ++ "\x7d").data
        = '\x7b' :: ((dsMacroChars ++ (' ' :: r.data)) ++ ['\x7d']) from rfl]
    apply braceScan_wrap
    intro c hc
    rcases List.mem_append.mp hc with h1 | h1
    · exact (by decide : ∀ x ∈ dsMacroChars, x ≠ '\x7b' ∧ x ≠ '\x7d') c h1
    · rcases List.mem_cons.mp h1 with rfl | h2
      · exact ⟨by decide, by decide⟩
      · exact ⟨(hfree c h2).1, (hfree c h2).2.1⟩
  have hSR2 : stripOuterBalancedBracesOnce ("\x7b\\displaystyle " ++ r ++ "\x7d")
      = "\\displaystyle " ++ r := by
    have hg2 : ("\x7b\\displaystyle " ++ r ++ "\x7d").data.getLast? = some '\x7d' := by
      rw [show ("\x7b\\displaystyle " ++ r ++ "\x7d").data
          = ('\x7b' :: (dsMacroChars ++ (' ' :: r.data))) ++ ['\x7d'] from rfl]
      exact List.getLast?_concat _
    simp only [stripOuterBalancedBracesOnce, hT2]
    rw [show ("\x7b\\displaystyle " ++ r ++ "\x7d").data.head? = some '\x7b' from rfl]
    simp only [hg2, hbs2]
    rw [show (("\x7b\\displaystyle " ++ r ++ "\x7d").data.drop 1)
        = (dsMacroChars ++ (' ' :: r.data)) ++ ['\x7d'] from rfl]
    rw [List.dropLast_concat]
    simp
    rfl
  have e2 : jsTrimS (stripOuterBalancedBracesOnce ("\x7b\\displaystyle " ++ r ++ "\x7d"))
      = "\\displaystyle " ++ r := by rw [hSR2, hT1]
  -- part 3 facts
  have hT3 : jsTrimS ("\\textstyle " ++ r) = "\\textstyle " ++ r := by
    apply trimS_id
    · rw [show ("\\textstyle " ++ r).data.take 1 = ['\\'] from rfl]
      intro c hc
      rw [List.mem_singleton] at hc
      subst hc
      decide
    · rw [show ("\\textstyle " ++ r).data = (tsMacroChars ++ [' ']) ++ r.data from rfl]
      rw [take1_reverse_append _ _ hne]
      exact hl
  have hne3 : ¬ ("\\textstyle " ++ r = "") := by
    intro hx
    have h0 := congrArg String.data hx
    rw [show ("\\textstyle " ++ r).data = tsMacroChars ++ (' ' :: r.data) from rfl] at h0
    rw [show ("" : String).data = [] from rfl] at h0
    simp [tsMacroChars] at h0
  have hSR3 : stripOuterBalancedBracesOnce ("\\textstyle " ++ r) = "\\textstyle " ++ r := by
    apply strip_noop _ hT3
    rw [show ("\\textstyle " ++ r).data.head? = some '\\' from rfl]
    intro hx
    exact absurd hx (by decide)
  have e3 : jsTrimS (stripOuterBalancedBracesOnce ("\\textstyle " ++ r))
      = "\\textstyle " ++ r := by rw [hSR3, hT3]
  have hdisp3 : testDispMacro ("\\textstyle " ++ r).data = false := rfl
  have hbd3 : testBraceDispMacro ("\\textstyle " ++ r).data = false := rfl
  have htm3 : testTextMacro ("\\textstyle " ++ r).data = true := rfl
  have hdroptm : dropTextMacro ("\\textstyle " ++ r).data = r.data := by
    rw [show dropTextMacro ("\\textstyle " ++ r).data
        = List.dropWhile jsWs (' ' :: r.data) from rfl]
    rw [List.dropWhile_cons, if_pos (by decide)]
    exact dropWhile_id_head jsWs r.data hh
  refine ⟨hmain _ hT1 hne1 e1, hmain _ hT2 hne2 e2, ?_⟩
  simp only [normalizeWikiTex, hT3, e3]
  rw [if_neg hne3]
  rw [show (3 : Nat) = 2 + 1 from rfl]
  rw [wikiLoop_fix 2 _ false e3 hdisp3 hbd3]
  simp only [htm3, if_true, hdroptm]
  rw [show (⟨r.data⟩ : String) = r from rfl]
  simp [hT]

/-- Claim C4 (witness). -/
theorem c4_wikitex_witness :
    normalizeWikiTex ("\\displaystyle " ++ "a+b") = ("a+b", true) ∧
    normalizeWikiTex ("\x7b\\displaystyle " ++ "a+b" ++ "\x7d") = ("a+b", true) ∧
    normalizeWikiTex ("\\textstyle " ++ "a+b") = ("a+b", false) :=
  c4_wikitex_normalization "a+b" (by decide) (by decide) (by decide) (by decide)

/-! ### Non-empty registered LaTeX (claim C9) -/

theorem guard_some (latex : String) (b : Bool) (u : String × Bool)
    (h : (if latex = "" then none else some (latex, b)) = some u) : u.1 ≠ "" := by
  by_cases he : latex = ""
  · rw [if_pos he] at h
    exact absurd h (by simp)
  · rw [if_neg he] at h
    injection h with h1
    subst h1
    exact he

/-- Claim C9 (amended): every DOM math-extraction pass guards against
empty LaTeX — whenever a resolver returns a unit, its LaTeX string is
non-empty, so those passes never register an empty entry.  The raw-TeX
text-node scan, however, violates the invariant (see the
counterexample): a match whose content trims to the empty string still
registers an entry, and the registered value is the empty string. -/
theorem c9_resolver_nonempty :
    (∀ (ann : Option String) (hdw hbm : Bool) (u : String × Bool),
      katexResolve ann hdw hbm = some u → u.1 ≠ "") ∧
    (∀ (ca : Bool) (conv : String → Option String) (ann : Option String)
        (mel : Option (String × String)) (da : String) (had : Bool) (u : String × Bool),
      mjxResolve ca conv ann mel da had = some u → u.1 ≠ "") ∧
    (∀ (ca : Bool) (conv : String → Option String) (outer txt da : String)
        (u : String × Bool),
      bareMathResolve ca conv outer txt da = some u → u.1 ≠ "") ∧
    (∀ (ta txt : String) (u : String × Bool),
      texScriptResolve ta txt = some u → u.1 ≠ "") ∧
    (∀ (ia : Option String) (mo : Option String) (ca : Bool)
        (conv : String → Option String) (mda : String) (hdi hii : Bool)
        (u : String × Bool),
      mediaWikiResolve ia mo ca conv mda hdi hii = some u → u.1 ≠ "") := by
  refine ⟨?_, ?_, ?_, ?_, ?_⟩
  · intro ann hdw hbm u h
    cases ann with
    | none => exact absurd h (by simp [katexResolve])
    | some a =>
      simp only [katexResolve] at h
      exact guard_some _ _ _ h
  · intro ca conv ann mel da had u h
    simp only [mjxResolve] at h
    split at h
    · exact absurd h (by simp)
    · exact guard_some _ _ _ h
  · intro ca conv outer txt da u h
    simp only [bareMathResolve] at h
    split at h
    · exact absurd h (by simp)
    · exact guard_some _ _ _ h
  · intro ta txt u h
    simp only [texScriptResolve] at h
    exact guard_some _ _ _ h
  · intro ia mo ca conv mda hdi hii u h
    simp only [mediaWikiResolve] at h
    exact guard_some _ _ _ h

/-- Claim C9 (counterexample to the original statement): the raw-TeX
text-node scan on `\( \)` — content trimming to empty — registers an
empty-string entry and emits a placeholder instead of skipping. -/
theorem c9_empty_latex_counterexample :
    jsTrimS " " = "" ∧
    convertInlineTeXTextNodes [] "\\( \\)" = ([""], "@@MATH0@@") := by
  have hstep : convertInlineTeXTextNodes [] "\\( \\)"
      = ([""], ⟨phTok mathTagChars 0 ++ []⟩) := rfl
  have hd0 : digitsOf 0 = ['0'] := by
    rw [digitsOf.eq_def]
    rw [if_pos (by norm_num)]
    decide
  have htok : (⟨phTok mathTagChars 0 ++ []⟩ : String) = "@@MATH0@@" := by
    rw [List.append_nil]
    simp only [phTok, hd0]
    decide
  exact ⟨by decide, by rw [hstep, htok]⟩

/-- Claim C9 (witness for the amended theorem). -/
theorem c9_resolver_nonempty_witness :
    texScriptResolve "math/tex" "E" = some ("E", true) ∧ ("E" : String) ≠ "" := by
  refine ⟨by decide, ?_⟩
  exact c9_resolver_nonempty.2.2.2.1 "math/tex" "E" ("E", true) (by decide)

/-! ### Duplicate-run fingerprint (claim C10) -/

/-- Claim C10: the fingerprint depends on the fragment HTML only
through the first 20000 UTF-16 code units — two serializations agreeing
on that prefix yield equal fingerprints, and a trigger whose state
already records that fingerprint as the last signature returns without
running the pipeline (no clipboard write), whatever the cooldown
state. -/
theorem c10_fingerprint_prefix (selText H1 H2 : String) (st : EngineState) (now : Nat)
    (hpre : (utf16Of H1).take 20000 = (utf16Of H2).take 20000)
    (hsig : st.lastSig = some (computeSig selText H1)) :
    computeSig selText H1 = computeSig selText H2 ∧
    (handleTrigger st now true false selText H2).2 = false := by
  have ha : computeSig selText H1 = computeSig selText H2 := by
    simp only [computeSig, htmlSigOf, hpre]
  refine ⟨ha, ?_⟩
  unfold handleTrigger
  by_cases h1 : now < st.cooldownUntil
  · rw [if_pos h1]
  · rw [if_neg h1]
    by_cases h2 : jsTrimS (normalizeInvisibleUnicode selText) = ""
    · simp [h2]
    · simp [h2, hsig, ha]

/-- Claim C10 (witness): two fragment serializations of different
lengths agreeing on the first 20000 code units. -/
theorem c10_fingerprint_witness :
    computeSig "hi" ⟨List.replicate 20001 'a'⟩ = computeSig "hi" ⟨List.replicate 20002 'a'⟩ ∧
    (handleTrigger ⟨some (computeSig "hi" ⟨List.replicate 20001 'a'⟩), 0, false, false⟩ 0
        true false "hi" ⟨List.replicate 20002 'a'⟩).2 = false := by
  have hu : ∀ n, utf16Of ⟨List.replicate n 'a'⟩ = List.replicate n 97 := by
    intro n
    induction n with
    | zero => rfl
    | succ m ih =>
      rw [show (⟨List.replicate (m + 1) 'a'⟩ : String) = ⟨'a' :: List.replicate m 'a'⟩ from by
        rw [List.replicate_succ]]
      rw [show utf16Of ⟨'a' :: List.replicate m 'a'⟩
          = 97 :: utf16Of ⟨List.replicate m 'a'⟩ from rfl]
      rw [ih, List.replicate_succ]
  apply c10_fingerprint_prefix
  · rw [hu, hu, List.take_replicate, List.take_replicate]
    rw [show min 20000 20001 = 20000 from by omega,
      show min 20000 20002 = 20000 from by omega]
  · rfl
